import Mathlib

/-!
# Verification of the equilex lexical scanner

Shallow embedding of `lexer.go` from the `equilex` repository: a lexical
scanner for a legacy 4GL database scripting language.  Runes are modelled as
`Char`; the buffered reader with one-rune pushback is modelled as a `Reader`
structure holding the input, a cursor position, and the `bufio`-style
"last operation was a successful ReadRune" flag that governs whether
`UnreadRune` succeeds.  A failed `UnreadRune` or `Peek(1)` panics in the Go
code, modelled by the `panicked` outcome; unbounded `for` loops are given
explicit fuel, with `fuelOut` marking exhaustion (a run that diverges in Go
returns `fuelOut` for every fuel).  All inputs relevant to the claims are
ASCII, for which byte-level `Peek` coincides with the `Char`-level model.
-/

namespace Equilex

/-- Token mirrors the Go `Token` enumeration from `lexer.go` (one constructor
per Go constant, in source order). -/
inductive Token where
  | Illegal
  | EOF
  | WS
  | NewLine
  | Comment
  | Identifier
  | String
  | Logical
  | Number
  | Date
  | StringConstant
  | StringMultilineConstant
  | IntegerConstant
  | DecimalConstant
  | DateOrTimeConstant
  | Comma
  | Equals
  | LeftParen
  | RightParen
  | LeftSquare
  | RightSquare
  | LeftAngle
  | RightAngle
  | Subtable
  | FindRecord
  | FileOpen
  | FilePrint
  | FirstRecord
  | Method
  | Text
  | Lookup
  | Alert
  | SetIndex
  | Execute
  | MethodSwap
  | MethodSetup
  | Process
  | FormSwap
  | Form
  | OptimiseTable
  | OptimiseTableIndexes
  | OptimiseDatabase
  | OptimiseDatabaseIndexes
  | OptimiseAllDatabases
  | OptimiseAllDatabasesIndexes
  | OptimiseDatabaseHelper
  | ConvertAllDatabases
  | Command
  | Task
  | Shell
  | Export
  | Import
  | EmptyDatabase
  | Query
  | ReportPreview
  | Report
  | System
  | Public
  | Procedure
  | External
  | If
  | Else
  | ElseIf
  | EndIf
  | While
  | End
  | Repeat
  | Until
  | For
  | Next
  | Step
  | Then
  | Block
  | Switch
  | Case
  | Not
  | And
  | Or
  | Xor
  | True
  | False
  | Plus
  | Minus
  | Multiply
  | Divide
  | Power
  | Ampersand
  | Today
  | Backslash
  | Dot
  | Semicolon
  | SysError
deriving DecidableEq, Repr

/-- Go: `var eof = rune(0)` — the sentinel returned by `read()` on any read
error (including end of input). -/
def eofRune : Char := Char.ofNat 0

/-- Go: `func isWhitespace(ch rune) bool { return ch == ' ' || ch == '\t' }` -/
def isWhitespace (ch : Char) : Bool := ch == ' ' || ch == '\t'

/-- Go: `func isLetter(ch rune) bool` — ASCII letter ranges, expressed on the
code point (97..122 is `'a'..'z'`, 65..90 is `'A'..'Z'`). -/
def isLetter (ch : Char) : Bool :=
  (97 ≤ ch.toNat && ch.toNat ≤ 122) || (65 ≤ ch.toNat && ch.toNat ≤ 90)

/-- Go: `func isDigit(ch rune) bool` — 48..57 is `'0'..'9'`. -/
def isDigit (ch : Char) : Bool := 48 ≤ ch.toNat && ch.toNat ≤ 57

/-- ASCII case folding used to model Go's `strings.ToUpper` on the identifier
characters admitted by `isLetter`/`isDigit`/`'_'` (all ASCII). -/
def toUpperChar (ch : Char) : Char :=
  if 97 ≤ ch.toNat ∧ ch.toNat ≤ 122 then Char.ofNat (ch.toNat - 32) else ch

/-- The buffered reader: input, cursor position, and whether the most recent
operation was a successful `ReadRune` (the precondition for `UnreadRune`). -/
structure Reader where
  input : List Char
  pos : Nat
  canUnread : Bool
deriving DecidableEq, Repr

/-- A fresh reader over an input, as built by `NewLexer`. -/
def Reader.init (input : List Char) : Reader := ⟨input, 0, false⟩

/-- Go: `func (s *Lexer) read() rune` — returns the next rune, or the `eof`
sentinel if `ReadRune` fails (in which case `bufio` clears the last-rune
record, so a subsequent `UnreadRune` would fail). -/
def Reader.read (r : Reader) : Char × Reader :=
  match r.input.get? r.pos with
  | some c => (c, ⟨r.input, r.pos + 1, Bool.true⟩)
  | none => (eofRune, ⟨r.input, r.pos, Bool.false⟩)

/-- Go: `bufio.Reader.UnreadRune` — succeeds only directly after a successful
`ReadRune`; `none` models the error (which `unread()` turns into a panic). -/
def Reader.unread (r : Reader) : Option Reader :=
  if r.canUnread then some ⟨r.input, r.pos - 1, Bool.false⟩ else none

/-- Go: `s.r.Peek(n)` — returns the next `n` bytes without advancing, or an
error (`none`) if fewer than `n` remain; either way it invalidates
`UnreadRune`.  For the ASCII inputs of the claims, bytes and runes agree. -/
def Reader.peekN (r : Reader) (n : Nat) : Option (List Char) × Reader :=
  if r.pos + n ≤ r.input.length
  then (some ((r.input.drop r.pos).take n), ⟨r.input, r.pos, Bool.false⟩)
  else (none, ⟨r.input, r.pos, Bool.false⟩)

/-- Go: `func peek1(r *bufio.Reader) byte` — panics (`none`) on error. -/
def Reader.peek1 (r : Reader) : Option Char × Reader :=
  (r.input.get? r.pos, ⟨r.input, r.pos, Bool.false⟩)

/-- The distinct fatal scan errors a `Scan` call can return (Go returns
`Illegal, "", err` with a formatted message; only the identity matters). -/
inductive ScanErr where
  /-- `scanSingleQuotedLiteral`: "malformed date or time". -/
  | malformedDateOrTime
  /-- `scanSingleQuotedLiteral`: "unclosed single quote" (newline hit). -/
  | unclosedSingleQuote
  /-- `scanDoubleQuotedLiteral`: "unclosed double quote" (newline hit). -/
  | unclosedDoubleQuote
  /-- `scanDollarQuotedLiteral`: eof before the closing `$`. -/
  | unclosedDollarQuote
  /-- `scanStandardComment`: "truncated file?" (eof inside a block comment). -/
  | truncatedComment
  /-- `scanNumber`: "malformed number?" (second decimal point). -/
  | malformedNumber
  /-- `scanComment`: the `io` error propagated when `Peek(2)` fails. -/
  | peekEOF
deriving DecidableEq, Repr

/-- Outcome of one `Scan` call: a token with its literal and the reader state
afterwards, a returned error, a Go panic, or fuel exhaustion (standing for a
Go run that has not returned within the given number of loop iterations). -/
inductive ScanResult where
  | tok (t : Token) (lit : List Char) (r : Reader)
  | err (e : ScanErr) (r : Reader)
  | panicked
  | fuelOut
deriving DecidableEq, Repr

/-- Go: `s.unread()` — panics when `UnreadRune` fails. -/
def withUnread (r : Reader) (k : Reader → ScanResult) : ScanResult :=
  match r.unread with
  | some r2 => k r2
  | none => .panicked

/-- The keyword table: the cases of the `switch strings.ToUpper(buf.String())`
in `scanIdentifier`, in source order.  Note the source maps
`"OPTIMISEDATABASEHELPER"` to `OptimiseDatabase`. -/
def keywords : List (List Char × Token) := [
  ("SUBTABLE".toList, .Subtable),
  ("FINDRECORD".toList, .FindRecord),
  ("FILEOPEN".toList, .FileOpen),
  ("FILEPRINT".toList, .FilePrint),
  ("FIRSTRECORD".toList, .FirstRecord),
  ("METHOD".toList, .Method),
  ("TEXT".toList, .Text),
  ("LOOKUP".toList, .Lookup),
  ("ALERT".toList, .Alert),
  ("SETINDEX".toList, .SetIndex),
  ("EXECUTE".toList, .Execute),
  ("METHODSWAP".toList, .MethodSwap),
  ("METHODSETUP".toList, .MethodSetup),
  ("PROCESS".toList, .Process),
  ("FORMSWAP".toList, .FormSwap),
  ("FORM".toList, .Form),
  ("OPTIMISETABLE".toList, .OptimiseTable),
  ("OPTIMISETABLEINDEXES".toList, .OptimiseTableIndexes),
  ("OPTIMISEDATABASE".toList, .OptimiseDatabase),
  ("OPTIMISEDATABASEINDEXES".toList, .OptimiseDatabaseIndexes),
  ("OPTIMISEALLDATABASES".toList, .OptimiseAllDatabases),
  ("OPTIMISEALLDATABASESINDEXES".toList, .OptimiseAllDatabasesIndexes),
  ("OPTIMISEDATABASEHELPER".toList, .OptimiseDatabase),
  ("CONVERTALLDATABASES".toList, .ConvertAllDatabases),
  ("COMMAND".toList, .Command),
  ("TASK".toList, .Task),
  ("SHELL".toList, .Shell),
  ("EXPORT".toList, .Export),
  ("IMPORT".toList, .Import),
  ("EMPTYDATABASE".toList, .EmptyDatabase),
  ("QUERY".toList, .Query),
  ("REPORTPREVIEW".toList, .ReportPreview),
  ("REPORT".toList, .Report),
  ("SYSTEM".toList, .System),
  ("PUBLIC".toList, .Public),
  ("PROCEDURE".toList, .Procedure),
  ("EXTERNAL".toList, .External),
  ("NOT".toList, .Not),
  ("IF".toList, .If),
  ("ELSE".toList, .Else),
  ("ELSEIF".toList, .ElseIf),
  ("ENDIF".toList, .EndIf),
  ("WHILE".toList, .While),
  ("END".toList, .End),
  ("REPEAT".toList, .Repeat),
  ("UNTIL".toList, .Until),
  ("FOR".toList, .For),
  ("NEXT".toList, .Next),
  ("STEP".toList, .Step),
  ("THEN".toList, .Then),
  ("BLOCK".toList, .Block),
  ("SWITCH".toList, .Switch),
  ("CASE".toList, .Case),
  ("AND".toList, .And),
  ("OR".toList, .Or),
  ("XOR".toList, .Xor),
  ("STRING".toList, .String),
  ("LOGICAL".toList, .Logical),
  ("DATE".toList, .Date),
  ("NUMBER".toList, .Number),
  ("TRUE".toList, .True),
  ("FALSE".toList, .False),
  ("TODAY".toList, .Today),
  ("SYSERROR".toList, .SysError)]

/-- First-match lookup in the keyword table (the `switch` semantics). -/
def lookupTable (key : List Char) : List (List Char × Token) → Option Token
  | [] => none
  | (k, t) :: rest => if key = k then some t else lookupTable key rest

/-- The keyword classification at the end of `scanIdentifier`: compare the
upper-cased text against the table, falling through to `Identifier`. -/
def lookupKeyword (w : List Char) : Token :=
  match lookupTable (w.map toUpperChar) keywords with
  | some t => t
  | none => .Identifier

/-- Loop of `scanWhitespace`. -/
def scanWhitespaceLoop : Nat → Reader → List Char → ScanResult
  | 0, _, _ => .fuelOut
  | fuel+1, r, buf =>
    let (ch, r1) := r.read
    if ch == eofRune then .tok .WS buf r1
    else if !(isWhitespace ch) then withUnread r1 (fun r2 => .tok .WS buf r2)
    else scanWhitespaceLoop fuel r1 (buf ++ [ch])

/-- Go: `func (s *Lexer) scanWhitespace()`. -/
def scanWhitespace (fuel : Nat) (r : Reader) : ScanResult :=
  let (c, r1) := r.read
  scanWhitespaceLoop fuel r1 [c]

/-- Loop of `scanSingleQuotedLiteral`, carrying the `isDate`/`isTime` flags. -/
def scanSingleQuotedLiteralLoop : Nat → Reader → List Char → Bool → Bool → ScanResult
  | 0, _, _, _, _ => .fuelOut
  | fuel+1, r, buf, isDate, isTime =>
    let (ch, r1) := r.read
    let isTime1 := if ch == ':' then Bool.true else isTime
    let isDate1 := if ch == '-' then Bool.true else isDate
    if isDate1 && isTime1 then .err .malformedDateOrTime r1
    else if ch == '\'' then .tok .DateOrTimeConstant (buf ++ [ch]) r1
    else if ch == '\n' then .err .unclosedSingleQuote r1
    else scanSingleQuotedLiteralLoop fuel r1 (buf ++ [ch]) isDate1 isTime1

/-- Go: `func (s *Lexer) scanSingleQuotedLiteral()`. -/
def scanSingleQuotedLiteral (fuel : Nat) (r : Reader) : ScanResult :=
  let (c, r1) := r.read
  scanSingleQuotedLiteralLoop fuel r1 [c] Bool.false Bool.false

/-- Loop of `scanDoubleQuotedLiteral`.  Note: at end of input `read` keeps
returning the sentinel, which falls into the default branch — the Go loop
never exits, so every fuel is exhausted. -/
def scanDoubleQuotedLiteralLoop : Nat → Reader → List Char → ScanResult
  | 0, _, _ => .fuelOut
  | fuel+1, r, buf =>
    let (ch, r1) := r.read
    if ch == '"' then .tok .StringConstant (buf ++ [ch]) r1
    else if ch == '\n' then .err .unclosedDoubleQuote r1
    else scanDoubleQuotedLiteralLoop fuel r1 (buf ++ [ch])

/-- Go: `func (s *Lexer) scanDoubleQuotedLiteral()`. -/
def scanDoubleQuotedLiteral (fuel : Nat) (r : Reader) : ScanResult :=
  let (c, r1) := r.read
  scanDoubleQuotedLiteralLoop fuel r1 [c]

/-- Loop of `scanDollarQuotedLiteral` (this one does test for eof). -/
def scanDollarQuotedLiteralLoop : Nat → Reader → List Char → ScanResult
  | 0, _, _ => .fuelOut
  | fuel+1, r, buf =>
    let (ch, r1) := r.read
    if ch == '$' then .tok .StringMultilineConstant (buf ++ [ch]) r1
    else if ch == eofRune then .err .unclosedDollarQuote r1
    else scanDollarQuotedLiteralLoop fuel r1 (buf ++ [ch])

/-- Go: `func (s *Lexer) scanDollarQuotedLiteral()`. -/
def scanDollarQuotedLiteral (fuel : Nat) (r : Reader) : ScanResult :=
  let (c, r1) := r.read
  scanDollarQuotedLiteralLoop fuel r1 [c]

/-- Loop of `scanSingleLineComment`. -/
def scanSingleLineCommentLoop : Nat → Reader → List Char → ScanResult
  | 0, _, _ => .fuelOut
  | fuel+1, r, buf =>
    let (ch, r1) := r.read
    if ch == '\n' then withUnread r1 (fun r2 => .tok .Comment buf r2)
    else if ch == eofRune then .tok .Comment buf r1
    else scanSingleLineCommentLoop fuel r1 (buf ++ [ch])

/-- Go: `func (s *Lexer) scanSingleLineComment()`. -/
def scanSingleLineComment (fuel : Nat) (r : Reader) : ScanResult :=
  let (c, r1) := r.read
  scanSingleLineCommentLoop fuel r1 [c]

/-- Loop of `scanStandardComment`, carrying the nesting counter.  `peek1` is
only consulted after `ch == '|'` or `ch == '*'` (Go's short-circuit `&&`),
and panics at end of input. -/
def scanStandardCommentLoop : Nat → Reader → List Char → Nat → ScanResult
  | 0, _, _, _ => .fuelOut
  | fuel+1, r, buf, nest =>
    let (ch, r1) := r.read
    if ch == eofRune then .err .truncatedComment r1
    else if ch == '|' then
      match r1.peek1 with
      | (none, _) => .panicked
      | (some b, r2) =>
        if b == '*' then scanStandardCommentLoop fuel r2 (buf ++ [ch]) (nest + 1)
        else scanStandardCommentLoop fuel r2 (buf ++ [ch]) nest
    else if ch == '*' then
      match r1.peek1 with
      | (none, _) => .panicked
      | (some b, r2) =>
        if b == '|' && decide (buf.length > 1) then
          if nest == 0 then
            let (_, r3) := r2.read
            .tok .Comment (buf ++ [ch, '|']) r3
          else scanStandardCommentLoop fuel r2 (buf ++ [ch]) (nest - 1)
        else scanStandardCommentLoop fuel r2 (buf ++ [ch]) nest
    else scanStandardCommentLoop fuel r1 (buf ++ [ch]) nest

/-- Go: `func (s *Lexer) scanStandardComment()`. -/
def scanStandardComment (fuel : Nat) (r : Reader) : ScanResult :=
  let (c, r1) := r.read
  scanStandardCommentLoop fuel r1 [c] 0

/-- Go: `func (s *Lexer) scanComment()` — `Peek(2)`, dispatch on `"|*"`;
a failed peek returns the io error straight to the caller. -/
def scanComment (fuel : Nat) (r : Reader) : ScanResult :=
  match r.peekN 2 with
  | (none, r1) => .err .peekEOF r1
  | (some peeked, r1) =>
    if peeked == ['|', '*'] then scanStandardComment fuel r1
    else scanSingleLineComment fuel r1

/-- Loop of `scanNewline`. -/
def scanNewlineLoop : Nat → Reader → List Char → ScanResult
  | 0, _, _ => .fuelOut
  | fuel+1, r, buf =>
    let (ch, r1) := r.read
    if ch != '\r' && ch != '\n' then
      if ch != eofRune then withUnread r1 (fun r2 => .tok .NewLine buf r2)
      else .tok .NewLine buf r1
    else scanNewlineLoop fuel r1 (buf ++ [ch])

/-- Go: `func (s *Lexer) scanNewline()`. -/
def scanNewline (fuel : Nat) (r : Reader) : ScanResult :=
  let (c, r1) := r.read
  scanNewlineLoop fuel r1 [c]

/-- Loop of `scanNumber`, carrying the current token kind (promoted from
`IntegerConstant` to `DecimalConstant` at the first `.`).  The terminating
default branch unconditionally calls `unread`, which panics if the preceding
read had already failed (end of input). -/
def scanNumberLoop : Nat → Reader → List Char → Token → ScanResult
  | 0, _, _, _ => .fuelOut
  | fuel+1, r, buf, token =>
    let (ch, r1) := r.read
    if ch == '.' then
      if token == Token.IntegerConstant
      then scanNumberLoop fuel r1 (buf ++ [ch]) .DecimalConstant
      else .err .malformedNumber r1
    else if isDigit ch then scanNumberLoop fuel r1 (buf ++ [ch]) token
    else withUnread r1 (fun r2 => .tok token buf r2)

/-- Go: `func (s *Lexer) scanNumber()`. -/
def scanNumber (fuel : Nat) (r : Reader) : ScanResult :=
  let (c, r1) := r.read
  scanNumberLoop fuel r1 [c] .IntegerConstant

/-- Loop of `scanIdentifier`; at the end the accumulated text goes through
the keyword table. -/
def scanIdentifierLoop : Nat → Reader → List Char → ScanResult
  | 0, _, _ => .fuelOut
  | fuel+1, r, buf =>
    let (ch, r1) := r.read
    if ch == eofRune then .tok (lookupKeyword buf) buf r1
    else if !(isLetter ch) && !(isDigit ch) && ch != '_' then
      withUnread r1 (fun r2 => .tok (lookupKeyword buf) buf r2)
    else scanIdentifierLoop fuel r1 (buf ++ [ch])

/-- Go: `func (s *Lexer) scanIdentifier()`. -/
def scanIdentifier (fuel : Nat) (r : Reader) : ScanResult :=
  let (c, r1) := r.read
  scanIdentifierLoop fuel r1 [c]

/-- Go: `func (s *Lexer) Scan()` — the dispatch engine: read one lookahead
rune, push it back for the sub-scanners, fall through to the single-character
switch (eof, punctuation, `Illegal`). -/
def scan (fuel : Nat) (r : Reader) : ScanResult :=
  let (ch, r1) := r.read
  if isWhitespace ch then withUnread r1 (scanWhitespace fuel)
  else if ch == '|' then withUnread r1 (scanComment fuel)
  else if ch == '"' then withUnread r1 (scanDoubleQuotedLiteral fuel)
  else if ch == '$' then withUnread r1 (scanDollarQuotedLiteral fuel)
  else if ch == '\'' then withUnread r1 (scanSingleQuotedLiteral fuel)
  else if ch == '\n' || ch == '\r' then withUnread r1 (scanNewline fuel)
  else if isDigit ch then withUnread r1 (scanNumber fuel)
  else if isLetter ch || ch == '_' then withUnread r1 (scanIdentifier fuel)
  else if ch == eofRune then .tok .EOF [] r1
  else if ch == ',' then .tok .Comma [ch] r1
  else if ch == '=' then .tok .Equals [ch] r1
  else if ch == '(' then .tok .LeftParen [ch] r1
  else if ch == ')' then .tok .RightParen [ch] r1
  else if ch == '[' then .tok .LeftSquare [ch] r1
  else if ch == ']' then .tok .RightSquare [ch] r1
  else if ch == '<' then .tok .LeftAngle [ch] r1
  else if ch == '>' then .tok .RightAngle [ch] r1
  else if ch == '+' then .tok .Plus [ch] r1
  else if ch == '-' then .tok .Minus [ch] r1
  else if ch == '*' then .tok .Multiply [ch] r1
  else if ch == '/' then .tok .Divide [ch] r1
  else if ch == '^' then .tok .Power [ch] r1
  else if ch == '&' then .tok .Ampersand [ch] r1
  else if ch == '.' then .tok .Dot [ch] r1
  else if ch == ';' then .tok .Semicolon [ch] r1
  else if ch == '\\' then .tok .Backslash [ch] r1
  else .tok .Illegal [ch] r1

/-- The caller loop (as in the repository's `findComments` test harness):
repeatedly `Scan` until the end-of-input token, collecting the returned
(token, literal) pairs; `none` if a call errors, panics, or fuel runs out. -/
def lexAll : Nat → Reader → Option (List (Token × List Char))
  | 0, _ => none
  | fuel+1, r =>
    match scan (fuel+1) r with
    | .tok t lit r2 =>
      if t = .EOF then some []
      else
        match lexAll fuel r2 with
        | some toks => some ((t, lit) :: toks)
        | none => none
    | _ => none

/-- Concatenation of the literal texts of a token sequence. -/
def joinLits (toks : List (Token × List Char)) : List Char :=
  (toks.map Prod.snd).flatten

/-! ## List cursor helpers -/

theorem drop_cons_of_get? {α : Type} (l : List α) :
    ∀ (n : Nat) {c : α}, l.get? n = some c → l.drop n = c :: l.drop (n + 1) := by
  induction l with
  | nil => intro n c h; simp [List.get?] at h
  | cons a as ih =>
    intro n c h
    cases n with
    | zero =>
      have h2 : a = c := Option.some.inj h
      subst h2
      rfl
    | succ m => exact ih m h

theorem drop_nil_of_get?_none {α : Type} (l : List α) (n : Nat)
    (h : l.get? n = none) : l.drop n = [] := by
  rw [List.get?_eq_none] at h
  exact List.drop_eq_nil_of_le h

theorem get?_of_drop_cons {α : Type} {l : List α} {n : Nat} {c : α} {xs : List α}
    (h : l.drop n = c :: xs) : l.get? n = some c ∧ l.drop (n + 1) = xs := by
  rcases hg : l.get? n with _ | d
  · rw [drop_nil_of_get?_none l n hg] at h
    exact absurd h (by simp)
  · rw [drop_cons_of_get? l n hg] at h
    rcases h with ⟨rfl, rfl⟩
    exact ⟨rfl, rfl⟩

theorem ne_eofRune_of_get?_of_noNul {c : Char} {l : List Char} {n : Nat}
    (hnul : eofRune ∉ l) (h : l.get? n = some c) : c ≠ eofRune := by
  intro hc
  exact hnul (hc ▸ List.get?_mem h)

/-! ## Divergence of the double- and single-quoted loops at end of input -/

theorem scanDoubleQuotedLiteralLoop_atEnd :
    ∀ (fuel : Nat) (r : Reader) (buf : List Char),
      r.input.length ≤ r.pos → scanDoubleQuotedLiteralLoop fuel r buf = .fuelOut := by
  intro fuel
  induction fuel with
  | zero => intro r buf _; rfl
  | succ n ih =>
    intro r buf h
    have hg : r.input.get? r.pos = none := List.get?_eq_none.2 h
    have h1 : (eofRune == '"') = Bool.false := by decide
    have h2 : (eofRune == '\n') = Bool.false := by decide
    simp only [scanDoubleQuotedLiteralLoop, Reader.read, hg, h1, h2, Bool.false_eq_true,
      if_false]
    exact ih ⟨r.input, r.pos, Bool.false⟩ (buf ++ [eofRune]) h

theorem scanSingleQuotedLiteralLoop_atEnd :
    ∀ (fuel : Nat) (r : Reader) (buf : List Char) (d t : Bool),
      r.input.length ≤ r.pos → (d && t) = Bool.false →
      scanSingleQuotedLiteralLoop fuel r buf d t = .fuelOut := by
  intro fuel
  induction fuel with
  | zero => intro r buf d t _ _; rfl
  | succ n ih =>
    intro r buf d t h hdt
    have hg : r.input.get? r.pos = none := List.get?_eq_none.2 h
    have h1 : (eofRune == ':') = Bool.false := by decide
    have h2 : (eofRune == '-') = Bool.false := by decide
    have h3 : (eofRune == '\'') = Bool.false := by decide
    have h4 : (eofRune == '\n') = Bool.false := by decide
    simp only [scanSingleQuotedLiteralLoop, Reader.read, hg, h1, h2, h3, h4,
      Bool.false_eq_true, if_false, hdt]
    exact ih ⟨r.input, r.pos, Bool.false⟩ (buf ++ [eofRune]) d t h hdt

/-! ## Per-loop token/consumption specifications

Each lemma states, for a loop that returned a token: which token kinds are
possible, and — on inputs free of the NUL sentinel — that the literal extends
the accumulated buffer by exactly the characters consumed from the cursor. -/

theorem scanWhitespaceLoop_spec :
    ∀ (fuel : Nat) (r : Reader) (buf lit : List Char) (t : Token) (r2 : Reader),
      scanWhitespaceLoop fuel r buf = .tok t lit r2 →
      t = .WS ∧ (eofRune ∉ r.input →
        r2.input = r.input ∧ ∃ ext, lit = buf ++ ext ∧
          r.input.drop r.pos = ext ++ r.input.drop r2.pos) := by
  intro fuel
  induction fuel with
  | zero => intro r buf lit t r2 h; simp [scanWhitespaceLoop] at h
  | succ n ih =>
    intro r buf lit t r2 h
    rcases hg : r.input.get? r.pos with _ | c
    · simp only [scanWhitespaceLoop, Reader.read, hg, beq_self_eq_true, if_true] at h
      rcases h with ⟨rfl, rfl, rfl⟩
      exact ⟨rfl, fun _ => ⟨rfl, [], by simp⟩⟩
    · simp only [scanWhitespaceLoop, Reader.read, hg] at h
      by_cases hc : c = eofRune
      · rw [if_pos (by simp [hc])] at h
        rcases h with ⟨rfl, rfl, rfl⟩
        refine ⟨rfl, fun hnul => absurd hg.symm ?_⟩
        intro hmem
        exact hnul (hc ▸ List.get?_mem hg)
      · rw [if_neg (by simp [hc])] at h
        by_cases hws : isWhitespace c
        · rw [if_neg (by simp [hws])] at h
          rcases ih _ _ _ _ _ h with ⟨ht, hcons⟩
          refine ⟨ht, fun hnul => ?_⟩
          rcases hcons hnul with ⟨hinp, ext, hlit, hdrop⟩
          refine ⟨hinp, c :: ext, by simpa using hlit, ?_⟩
          rw [drop_cons_of_get? _ _ hg]
          simp only [List.cons_append, List.cons.injEq, true_and]
          simpa using hdrop
        · rw [if_pos (by simp [hws]), withUnread, Reader.unread] at h
          simp only [if_pos rfl] at h
          rcases h with ⟨rfl, rfl, rfl⟩
          exact ⟨rfl, fun _ => ⟨rfl, [], by simp⟩⟩

theorem scanNewlineLoop_spec :
    ∀ (fuel : Nat) (r : Reader) (buf lit : List Char) (t : Token) (r2 : Reader),
      scanNewlineLoop fuel r buf = .tok t lit r2 →
      t = .NewLine ∧ (eofRune ∉ r.input →
        r2.input = r.input ∧ ∃ ext, lit = buf ++ ext ∧
          r.input.drop r.pos = ext ++ r.input.drop r2.pos) := by
  intro fuel
  induction fuel with
  | zero => intro r buf lit t r2 h; simp [scanNewlineLoop] at h
  | succ n ih =>
    intro r buf lit t r2 h
    rcases hg : r.input.get? r.pos with _ | c
    · have e1 : (eofRune != '\r' && eofRune != '\n') = Bool.true := by decide
      have e2 : (eofRune != eofRune) = Bool.true ↔ False := by decide
      simp only [scanNewlineLoop, Reader.read, hg, e1, if_true, e2, if_false,
        ScanResult.tok.injEq] at h
      rcases h with ⟨rfl, rfl, rfl⟩
      exact ⟨rfl, fun _ => ⟨rfl, [], by simp, by simp⟩⟩
    · simp only [scanNewlineLoop, Reader.read, hg] at h
      by_cases hnl : (c != '\r' && c != '\n') = Bool.true
      · rw [if_pos hnl] at h
        by_cases hce : c = eofRune
        · rw [if_neg (by simp [hce])] at h
          simp only [ScanResult.tok.injEq] at h
          rcases h with ⟨rfl, rfl, rfl⟩
          exact ⟨rfl, fun hnul => absurd hce (ne_eofRune_of_get?_of_noNul hnul hg)⟩
        · rw [if_pos (by simp [hce])] at h
          simp only [withUnread, Reader.unread, Nat.add_sub_cancel,
            ScanResult.tok.injEq, if_true] at h
          rcases h with ⟨rfl, rfl, rfl⟩
          exact ⟨rfl, fun _ => ⟨rfl, [], by simp, by simp⟩⟩
      · rw [if_neg hnl] at h
        rcases ih _ _ _ _ _ h with ⟨ht, hcons⟩
        refine ⟨ht, fun hnul => ?_⟩
        rcases hcons hnul with ⟨hinp, ext, hlit, hdrop⟩
        refine ⟨hinp, c :: ext, by simpa using hlit, ?_⟩
        rw [drop_cons_of_get? _ _ hg]
        simpa using hdrop

theorem scanSingleLineCommentLoop_spec :
    ∀ (fuel : Nat) (r : Reader) (buf lit : List Char) (t : Token) (r2 : Reader),
      scanSingleLineCommentLoop fuel r buf = .tok t lit r2 →
      t = .Comment ∧ (eofRune ∉ r.input →
        r2.input = r.input ∧ ∃ ext, lit = buf ++ ext ∧
          r.input.drop r.pos = ext ++ r.input.drop r2.pos) := by
  intro fuel
  induction fuel with
  | zero => intro r buf lit t r2 h; simp [scanSingleLineCommentLoop] at h
  | succ n ih =>
    intro r buf lit t r2 h
    rcases hg : r.input.get? r.pos with _ | c
    · have e1 : (eofRune == '\n') = Bool.true ↔ False := by decide
      have e2 : (eofRune == eofRune) = Bool.true := by decide
      simp only [scanSingleLineCommentLoop, Reader.read, hg, e1, if_false, e2, if_true,
        ScanResult.tok.injEq] at h
      rcases h with ⟨rfl, rfl, rfl⟩
      exact ⟨rfl, fun _ => ⟨rfl, [], by simp, by simp⟩⟩
    · simp only [scanSingleLineCommentLoop, Reader.read, hg] at h
      by_cases hn : c = '\n'
      · rw [if_pos (by simp [hn])] at h
        simp only [withUnread, Reader.unread, Nat.add_sub_cancel, if_true,
          ScanResult.tok.injEq] at h
        rcases h with ⟨rfl, rfl, rfl⟩
        exact ⟨rfl, fun _ => ⟨rfl, [], by simp, by simp⟩⟩
      · rw [if_neg (by simp [hn])] at h
        by_cases hce : c = eofRune
        · rw [if_pos (by simp [hce])] at h
          simp only [ScanResult.tok.injEq] at h
          rcases h with ⟨rfl, rfl, rfl⟩
          exact ⟨rfl, fun hnul => absurd hce (ne_eofRune_of_get?_of_noNul hnul hg)⟩
        · rw [if_neg (by simp [hce])] at h
          rcases ih _ _ _ _ _ h with ⟨ht, hcons⟩
          refine ⟨ht, fun hnul => ?_⟩
          rcases hcons hnul with ⟨hinp, ext, hlit, hdrop⟩
          refine ⟨hinp, c :: ext, by simpa using hlit, ?_⟩
          rw [drop_cons_of_get? _ _ hg]
          simpa using hdrop

theorem scanIdentifierLoop_spec :
    ∀ (fuel : Nat) (r : Reader) (buf lit : List Char) (t : Token) (r2 : Reader),
      scanIdentifierLoop fuel r buf = .tok t lit r2 →
      t = lookupKeyword lit ∧ (eofRune ∉ r.input →
        r2.input = r.input ∧ ∃ ext, lit = buf ++ ext ∧
          r.input.drop r.pos = ext ++ r.input.drop r2.pos) := by
  intro fuel
  induction fuel with
  | zero => intro r buf lit t r2 h; simp [scanIdentifierLoop] at h
  | succ n ih =>
    intro r buf lit t r2 h
    rcases hg : r.input.get? r.pos with _ | c
    · have e2 : (eofRune == eofRune) = Bool.true := by decide
      simp only [scanIdentifierLoop, Reader.read, hg, e2, if_true,
        ScanResult.tok.injEq] at h
      rcases h with ⟨rfl, rfl, rfl⟩
      exact ⟨rfl, fun _ => ⟨rfl, [], by simp, by simp⟩⟩
    · simp only [scanIdentifierLoop, Reader.read, hg] at h
      by_cases hce : c = eofRune
      · rw [if_pos (by simp [hce])] at h
        simp only [ScanResult.tok.injEq] at h
        rcases h with ⟨rfl, rfl, rfl⟩
        exact ⟨rfl, fun hnul => absurd hce (ne_eofRune_of_get?_of_noNul hnul hg)⟩
      · rw [if_neg (by simp [hce])] at h
        by_cases hend : (!(isLetter c) && !(isDigit c) && c != '_') = Bool.true
        · rw [if_pos hend] at h
          simp only [withUnread, Reader.unread, Nat.add_sub_cancel, if_true,
            ScanResult.tok.injEq] at h
          rcases h with ⟨rfl, rfl, rfl⟩
          exact ⟨rfl, fun _ => ⟨rfl, [], by simp, by simp⟩⟩
        · rw [if_neg hend] at h
          rcases ih _ _ _ _ _ h with ⟨ht, hcons⟩
          refine ⟨ht, fun hnul => ?_⟩
          rcases hcons hnul with ⟨hinp, ext, hlit, hdrop⟩
          refine ⟨hinp, c :: ext, by simpa using hlit, ?_⟩
          rw [drop_cons_of_get? _ _ hg]
          simpa using hdrop

theorem scanNumberLoop_spec :
    ∀ (fuel : Nat) (r : Reader) (buf lit : List Char) (tk t : Token) (r2 : Reader),
      scanNumberLoop fuel r buf tk = .tok t lit r2 →
      (t = tk ∨ t = .DecimalConstant) ∧ (eofRune ∉ r.input →
        r2.input = r.input ∧ ∃ ext, lit = buf ++ ext ∧
          r.input.drop r.pos = ext ++ r.input.drop r2.pos) := by
  intro fuel
  induction fuel with
  | zero => intro r buf lit tk t r2 h; simp [scanNumberLoop] at h
  | succ n ih =>
    intro r buf lit tk t r2 h
    rcases hg : r.input.get? r.pos with _ | c
    · have e1 : (eofRune == '.') = Bool.true ↔ False := by decide
      have e2 : isDigit eofRune = Bool.true ↔ False := by decide
      simp only [scanNumberLoop, Reader.read, hg, e1, if_false, e2,
        withUnread, Reader.unread] at h
      simp at h
    · simp only [scanNumberLoop, Reader.read, hg] at h
      by_cases hdot : c = '.'
      · rw [if_pos (by simp [hdot])] at h
        by_cases htk : tk = Token.IntegerConstant
        · rw [if_pos (by simp [htk])] at h
          rcases ih _ _ _ _ _ _ h with ⟨ht, hcons⟩
          refine ⟨Or.inr (by rcases ht with h1 | h1 <;> exact h1), fun hnul => ?_⟩
          rcases hcons hnul with ⟨hinp, ext, hlit, hdrop⟩
          refine ⟨hinp, c :: ext, by simpa using hlit, ?_⟩
          rw [drop_cons_of_get? _ _ hg]
          simpa using hdrop
        · rw [if_neg (by simp [htk])] at h
          simp at h
      · rw [if_neg (by simp [hdot])] at h
        by_cases hdig : isDigit c = Bool.true
        · rw [if_pos hdig] at h
          rcases ih _ _ _ _ _ _ h with ⟨ht, hcons⟩
          refine ⟨ht, fun hnul => ?_⟩
          rcases hcons hnul with ⟨hinp, ext, hlit, hdrop⟩
          refine ⟨hinp, c :: ext, by simpa using hlit, ?_⟩
          rw [drop_cons_of_get? _ _ hg]
          simpa using hdrop
        · rw [if_neg hdig] at h
          simp only [withUnread, Reader.unread, Nat.add_sub_cancel, if_true,
            ScanResult.tok.injEq] at h
          rcases h with ⟨rfl, rfl, rfl⟩
          exact ⟨Or.inl rfl, fun _ => ⟨rfl, [], by simp, by simp⟩⟩

theorem scanDollarQuotedLiteralLoop_spec :
    ∀ (fuel : Nat) (r : Reader) (buf lit : List Char) (t : Token) (r2 : Reader),
      scanDollarQuotedLiteralLoop fuel r buf = .tok t lit r2 →
      t = .StringMultilineConstant ∧ (eofRune ∉ r.input →
        r2.input = r.input ∧ ∃ ext, lit = buf ++ ext ∧
          r.input.drop r.pos = ext ++ r.input.drop r2.pos) := by
  intro fuel
  induction fuel with
  | zero => intro r buf lit t r2 h; simp [scanDollarQuotedLiteralLoop] at h
  | succ n ih =>
    intro r buf lit t r2 h
    rcases hg : r.input.get? r.pos with _ | c
    · have e1 : (eofRune == '$') = Bool.true ↔ False := by decide
      have e2 : (eofRune == eofRune) = Bool.true := by decide
      simp only [scanDollarQuotedLiteralLoop, Reader.read, hg, e1, if_false, e2,
        if_true] at h
      simp at h
    · simp only [scanDollarQuotedLiteralLoop, Reader.read, hg] at h
      by_cases hd : c = '$'
      · rw [if_pos (by simp [hd])] at h
        simp only [ScanResult.tok.injEq] at h
        rcases h with ⟨rfl, rfl, rfl⟩
        refine ⟨rfl, fun _ => ⟨rfl, [c], rfl, ?_⟩⟩
        rw [drop_cons_of_get? _ _ hg]
        simp
      · rw [if_neg (by simp [hd])] at h
        by_cases hce : c = eofRune
        · rw [if_pos (by simp [hce])] at h
          simp at h
        · rw [if_neg (by simp [hce])] at h
          rcases ih _ _ _ _ _ h with ⟨ht, hcons⟩
          refine ⟨ht, fun hnul => ?_⟩
          rcases hcons hnul with ⟨hinp, ext, hlit, hdrop⟩
          refine ⟨hinp, c :: ext, by simpa using hlit, ?_⟩
          rw [drop_cons_of_get? _ _ hg]
          simpa using hdrop

theorem cons_ext_step {input : List Char} {pos p2 : Nat} {c : Char} {buf lit : List Char}
    (hg : input.get? pos = some c)
    (hex : ∃ ext, lit = (buf ++ [c]) ++ ext ∧ input.drop (pos + 1) = ext ++ input.drop p2) :
    ∃ ext, lit = buf ++ ext ∧ input.drop pos = ext ++ input.drop p2 := by
  rcases hex with ⟨ext, hlit, hdrop⟩
  refine ⟨c :: ext, by simpa using hlit, ?_⟩
  rw [drop_cons_of_get? _ _ hg]
  simpa using hdrop

theorem scanDoubleQuotedLiteralLoop_spec :
    ∀ (fuel : Nat) (r : Reader) (buf lit : List Char) (t : Token) (r2 : Reader),
      scanDoubleQuotedLiteralLoop fuel r buf = .tok t lit r2 →
      t = .StringConstant ∧ (eofRune ∉ r.input →
        r2.input = r.input ∧ ∃ ext, lit = buf ++ ext ∧
          r.input.drop r.pos = ext ++ r.input.drop r2.pos) := by
  intro fuel
  induction fuel with
  | zero => intro r buf lit t r2 h; simp [scanDoubleQuotedLiteralLoop] at h
  | succ n ih =>
    intro r buf lit t r2 h
    rcases hg : r.input.get? r.pos with _ | c
    · have e1 : (eofRune == '"') = Bool.true ↔ False := by decide
      have e2 : (eofRune == '\n') = Bool.true ↔ False := by decide
      simp only [scanDoubleQuotedLiteralLoop, Reader.read, hg, e1, e2, if_false] at h
      rw [scanDoubleQuotedLiteralLoop_atEnd n ⟨r.input, r.pos, Bool.false⟩
        (buf ++ [eofRune]) (List.get?_eq_none.1 hg)] at h
      simp at h
    · simp only [scanDoubleQuotedLiteralLoop, Reader.read, hg] at h
      by_cases hq : c = '"'
      · rw [if_pos (by simp [hq])] at h
        simp only [ScanResult.tok.injEq] at h
        rcases h with ⟨rfl, rfl, rfl⟩
        refine ⟨rfl, fun _ => ⟨rfl, [c], rfl, ?_⟩⟩
        rw [drop_cons_of_get? _ _ hg]
        simp
      · rw [if_neg (by simp [hq])] at h
        by_cases hn : c = '\n'
        · rw [if_pos (by simp [hn])] at h
          simp at h
        · rw [if_neg (by simp [hn])] at h
          rcases ih _ _ _ _ _ h with ⟨ht, hcons⟩
          exact ⟨ht, fun hnul => ⟨(hcons hnul).1, cons_ext_step hg (hcons hnul).2⟩⟩

theorem scanSingleQuotedLiteralLoop_spec :
    ∀ (fuel : Nat) (r : Reader) (buf lit : List Char) (d b : Bool) (t : Token) (r2 : Reader),
      scanSingleQuotedLiteralLoop fuel r buf d b = .tok t lit r2 →
      t = .DateOrTimeConstant ∧ (eofRune ∉ r.input →
        r2.input = r.input ∧ ∃ ext, lit = buf ++ ext ∧
          r.input.drop r.pos = ext ++ r.input.drop r2.pos) := by
  intro fuel
  induction fuel with
  | zero => intro r buf lit d b t r2 h; simp [scanSingleQuotedLiteralLoop] at h
  | succ n ih =>
    intro r buf lit d b t r2 h
    rcases hg : r.input.get? r.pos with _ | c
    · have e1 : (eofRune == ':') = Bool.true ↔ False := by decide
      have e2 : (eofRune == '-') = Bool.true ↔ False := by decide
      have e3 : (eofRune == '\'') = Bool.true ↔ False := by decide
      have e4 : (eofRune == '\n') = Bool.true ↔ False := by decide
      simp only [scanSingleQuotedLiteralLoop, Reader.read, hg, e1, e2, e3, e4,
        if_false] at h
      by_cases hdb : (d && b) = Bool.true
      · rw [if_pos hdb] at h
        simp at h
      · rw [if_neg hdb] at h
        rw [scanSingleQuotedLiteralLoop_atEnd n ⟨r.input, r.pos, Bool.false⟩
          (buf ++ [eofRune]) d b (List.get?_eq_none.1 hg) (by simpa using hdb)] at h
        simp at h
    · simp only [scanSingleQuotedLiteralLoop, Reader.read, hg] at h
      repeat' split at h
      all_goals
        first
        | (simp at h; done)
        | (simp only [ScanResult.tok.injEq] at h
           rcases h with ⟨rfl, rfl, rfl⟩
           refine ⟨rfl, fun _ => ⟨rfl, [c], rfl, ?_⟩⟩
           rw [drop_cons_of_get? _ _ hg]
           simp)
        | (rcases ih _ _ _ _ _ _ _ h with ⟨ht, hcons⟩
           exact ⟨ht, fun hnul => ⟨(hcons hnul).1, cons_ext_step hg (hcons hnul).2⟩⟩)

theorem scanStandardCommentLoop_spec :
    ∀ (fuel : Nat) (r : Reader) (buf lit : List Char) (nest : Nat) (t : Token) (r2 : Reader),
      scanStandardCommentLoop fuel r buf nest = .tok t lit r2 →
      t = .Comment ∧ (eofRune ∉ r.input →
        r2.input = r.input ∧ ∃ ext, lit = buf ++ ext ∧
          r.input.drop r.pos = ext ++ r.input.drop r2.pos) := by
  intro fuel
  induction fuel with
  | zero => intro r buf lit nest t r2 h; simp [scanStandardCommentLoop] at h
  | succ n ih =>
    intro r buf lit nest t r2 h
    rcases hg : r.input.get? r.pos with _ | c
    · have e2 : (eofRune == eofRune) = Bool.true := by decide
      simp only [scanStandardCommentLoop, Reader.read, hg, e2, if_true] at h
      simp at h
    · simp only [scanStandardCommentLoop, Reader.read, hg] at h
      by_cases hce : c = eofRune
      · rw [if_pos (by simp [hce])] at h
        simp at h
      · rw [if_neg (by simp [hce])] at h
        by_cases hpipe : c = '|'
        · rw [if_pos (by simp [hpipe])] at h
          rcases hg2 : r.input.get? (r.pos + 1) with _ | b
          · simp only [Reader.peek1, hg2] at h
            simp at h
          · simp only [Reader.peek1, hg2] at h
            have hrec : scanStandardCommentLoop n ⟨r.input, r.pos + 1, Bool.false⟩
                  (buf ++ [c]) (nest + 1) = .tok t lit r2 ∨
                scanStandardCommentLoop n ⟨r.input, r.pos + 1, Bool.false⟩
                  (buf ++ [c]) nest = .tok t lit r2 := by
              by_cases hb : (b == '*') = Bool.true
              · rw [if_pos hb] at h; exact Or.inl h
              · rw [if_neg hb] at h; exact Or.inr h
            rcases hrec with h2 | h2 <;>
              (rcases ih _ _ _ _ _ _ h2 with ⟨ht, hcons⟩;
               exact ⟨ht, fun hnul => ⟨(hcons hnul).1, cons_ext_step hg (hcons hnul).2⟩⟩)
        · rw [if_neg (by simp [hpipe])] at h
          by_cases hstar : c = '*'
          · rw [if_pos (by simp [hstar])] at h
            rcases hg2 : r.input.get? (r.pos + 1) with _ | b
            · simp only [Reader.peek1, hg2] at h
              simp at h
            · simp only [Reader.peek1, hg2] at h
              by_cases hclose : (b == '|' && decide (buf.length > 1)) = Bool.true
              · rw [if_pos hclose] at h
                by_cases hnest : (nest == 0) = Bool.true
                · rw [if_pos hnest] at h
                  simp only [Reader.read, hg2, ScanResult.tok.injEq] at h
                  rcases h with ⟨rfl, rfl, rfl⟩
                  have hb : b = '|' := by
                    rcases Bool.and_eq_true_iff.1 hclose with ⟨hb1, _⟩
                    simpa using hb1
                  refine ⟨rfl, fun _ => ⟨rfl, [c, '|'], rfl, ?_⟩⟩
                  rw [drop_cons_of_get? _ _ hg, drop_cons_of_get? _ _ hg2, hb]
                  simp
                · rw [if_neg hnest] at h
                  rcases ih _ _ _ _ _ _ h with ⟨ht, hcons⟩
                  exact ⟨ht, fun hnul => ⟨(hcons hnul).1, cons_ext_step hg (hcons hnul).2⟩⟩
              · rw [if_neg hclose] at h
                rcases ih _ _ _ _ _ _ h with ⟨ht, hcons⟩
                exact ⟨ht, fun hnul => ⟨(hcons hnul).1, cons_ext_step hg (hcons hnul).2⟩⟩
          · rw [if_neg (by simp [hstar])] at h
            rcases ih _ _ _ _ _ _ h with ⟨ht, hcons⟩
            exact ⟨ht, fun hnul => ⟨(hcons hnul).1, cons_ext_step hg (hcons hnul).2⟩⟩

/-! ## Keyword table facts -/

theorem lookupTable_mem (key : List Char) :
    ∀ (tbl : List (List Char × Token)) {t : Token},
      lookupTable key tbl = some t → t ∈ tbl.map Prod.snd := by
  intro tbl
  induction tbl with
  | nil => intro t h; exact absurd h (by exact Option.noConfusion)
  | cons p rest ih =>
    intro t h
    rcases p with ⟨k, v⟩
    rw [show lookupTable key ((k, v) :: rest)
        = if key = k then some v else lookupTable key rest from rfl] at h
    by_cases hk : key = k
    · rw [if_pos hk] at h
      cases Option.some.inj h
      simp only [List.map_cons]
      exact List.mem_cons_self _ _
    · rw [if_neg hk] at h
      simp only [List.map_cons, List.mem_cons]
      exact Or.inr (ih h)

/-- The keyword table never classifies a word as `OptimiseDatabaseHelper`
(the `"OPTIMISEDATABASEHELPER"` case returns `OptimiseDatabase`). -/
theorem lookupKeyword_ne_helper (w : List Char) :
    lookupKeyword w ≠ .OptimiseDatabaseHelper := by
  unfold lookupKeyword
  rcases hl : lookupTable (w.map toUpperChar) keywords with _ | t
  · simp
  · have hmem := lookupTable_mem _ keywords hl
    intro hcontra
    simp only [] at hcontra
    rw [hcontra] at hmem
    revert hmem
    decide

theorem lookupKeyword_ne_EOF (w : List Char) :
    lookupKeyword w ≠ .EOF := by
  unfold lookupKeyword
  rcases hl : lookupTable (w.map toUpperChar) keywords with _ | t
  · simp
  · have hmem := lookupTable_mem _ keywords hl
    intro hcontra
    simp only [] at hcontra
    rw [hcontra] at hmem
    revert hmem
    decide

/-! ## The dispatch engine -/

/-- When the cursor is at end of input, `Scan` returns the end-of-input
token with an empty literal, leaving the position unchanged. -/
theorem scan_at_end (fuel : Nat) (r : Reader) (hg : r.input.get? r.pos = none) :
    scan fuel r = .tok .EOF [] ⟨r.input, r.pos, Bool.false⟩ := by
  simp only [scan, Reader.read, hg]
  rfl

theorem scan_punct_leaf {r : Reader} {c : Char} {T t : Token} {lit : List Char} {r2 : Reader}
    (hg : r.input.get? r.pos = some c)
    (hT1 : T ≠ .OptimiseDatabaseHelper) (hT2 : T ≠ .EOF)
    (h : ScanResult.tok T [c] ⟨r.input, r.pos + 1, Bool.true⟩ = .tok t lit r2) :
    t ≠ .OptimiseDatabaseHelper ∧ (eofRune ∉ r.input →
      r2.input = r.input ∧ r.input.drop r.pos = lit ++ r.input.drop r2.pos ∧
      (t = .EOF → r.input.drop r.pos = [])) := by
  simp only [ScanResult.tok.injEq] at h
  rcases h with ⟨rfl, rfl, rfl⟩
  refine ⟨hT1, fun _ => ⟨rfl, ?_, fun hE => absurd hE hT2⟩⟩
  rw [drop_cons_of_get? _ _ hg]
  simp

theorem scan_branch_glue {r : Reader} {c : Char} {t T : Token} {lit : List Char} {r2 : Reader}
    (hg : r.input.get? r.pos = some c)
    (ht : t = T) (hT1 : T ≠ .OptimiseDatabaseHelper) (hT2 : T ≠ .EOF)
    (hcons : eofRune ∉ r.input →
       r2.input = r.input ∧ ∃ ext, lit = [c] ++ ext ∧
         r.input.drop (r.pos + 1) = ext ++ r.input.drop r2.pos) :
    t ≠ .OptimiseDatabaseHelper ∧ (eofRune ∉ r.input →
      r2.input = r.input ∧ r.input.drop r.pos = lit ++ r.input.drop r2.pos ∧
      (t = .EOF → r.input.drop r.pos = [])) := by
  subst ht
  refine ⟨hT1, fun hnul => ?_⟩
  rcases hcons hnul with ⟨hinp, ext, hlit, hdrop⟩
  refine ⟨hinp, ?_, fun hE => absurd hE hT2⟩
  rw [drop_cons_of_get? _ _ hg, hlit]
  simpa using hdrop

/-- Master specification of one `Scan` call that returned a token: the token
is never `OptimiseDatabaseHelper`, and on NUL-free inputs the literal is
exactly the text consumed (with the end-of-input token consuming nothing). -/
theorem scan_spec :
    ∀ (fuel : Nat) (r : Reader) (t : Token) (lit : List Char) (r2 : Reader),
      scan fuel r = .tok t lit r2 →
      t ≠ .OptimiseDatabaseHelper ∧ (eofRune ∉ r.input →
        r2.input = r.input ∧ r.input.drop r.pos = lit ++ r.input.drop r2.pos ∧
        (t = .EOF → r.input.drop r.pos = [])) := by
  intro fuel r t lit r2 h
  rcases hg : r.input.get? r.pos with _ | c
  · rw [scan_at_end fuel r hg] at h
    simp only [ScanResult.tok.injEq] at h
    rcases h with ⟨rfl, rfl, rfl⟩
    have hdnil := drop_nil_of_get?_none _ _ hg
    exact ⟨by decide, fun _ => ⟨rfl, by simp, fun _ => hdnil⟩⟩
  · simp only [scan, Reader.read, hg] at h
    by_cases hws : isWhitespace c = Bool.true
    · rw [if_pos hws] at h
      simp only [withUnread, Reader.unread, Nat.add_sub_cancel, if_true,
        scanWhitespace, Reader.read, hg] at h
      rcases scanWhitespaceLoop_spec _ _ _ _ _ _ h with ⟨ht, hcons⟩
      exact scan_branch_glue hg ht (by decide) (by decide) hcons
    · rw [if_neg hws] at h
      by_cases hpipe : c = '|'
      · rw [if_pos (by simp [hpipe])] at h
        simp only [withUnread, Reader.unread, Nat.add_sub_cancel, if_true] at h
        by_cases hlen : r.pos + 2 ≤ r.input.length
        · rcases hg2 : r.input.get? (r.pos + 1) with _ | c2
          · exact absurd (List.get?_eq_none.1 hg2) (by omega)
          · have htake : (r.input.drop r.pos).take 2 = [c, c2] := by
              rw [drop_cons_of_get? _ _ hg, drop_cons_of_get? _ _ hg2]
              rfl
            have hpk : Reader.peekN ⟨r.input, r.pos, Bool.false⟩ 2
                = (some [c, c2], ⟨r.input, r.pos, Bool.false⟩) := by
              simp only [Reader.peekN]
              rw [if_pos hlen, htake]
            simp only [scanComment, hpk] at h
            by_cases hc2 : c2 = '*'
            · rw [if_pos (by simp [hpipe, hc2])] at h
              simp only [scanStandardComment, Reader.read, hg] at h
              rcases scanStandardCommentLoop_spec _ _ _ _ _ _ _ h with ⟨ht, hcons⟩
              exact scan_branch_glue hg ht (by decide) (by decide) hcons
            · rw [if_neg (by simp [hpipe, hc2])] at h
              simp only [scanSingleLineComment, Reader.read, hg] at h
              rcases scanSingleLineCommentLoop_spec _ _ _ _ _ _ h with ⟨ht, hcons⟩
              exact scan_branch_glue hg ht (by decide) (by decide) hcons
        · have hpk : Reader.peekN ⟨r.input, r.pos, Bool.false⟩ 2
              = (none, ⟨r.input, r.pos, Bool.false⟩) := by
            simp only [Reader.peekN]
            rw [if_neg hlen]
          simp only [scanComment, hpk] at h
          simp at h
      · rw [if_neg (by simp [hpipe])] at h
        by_cases hdq : c = '"'
        · rw [if_pos (by simp [hdq])] at h
          simp only [withUnread, Reader.unread, Nat.add_sub_cancel, if_true,
            scanDoubleQuotedLiteral, Reader.read, hg] at h
          rcases scanDoubleQuotedLiteralLoop_spec _ _ _ _ _ _ h with ⟨ht, hcons⟩
          exact scan_branch_glue hg ht (by decide) (by decide) hcons
        · rw [if_neg (by simp [hdq])] at h
          by_cases hdol : c = '$'
          · rw [if_pos (by simp [hdol])] at h
            simp only [withUnread, Reader.unread, Nat.add_sub_cancel, if_true,
              scanDollarQuotedLiteral, Reader.read, hg] at h
            rcases scanDollarQuotedLiteralLoop_spec _ _ _ _ _ _ h with ⟨ht, hcons⟩
            exact scan_branch_glue hg ht (by decide) (by decide) hcons
          · rw [if_neg (by simp [hdol])] at h
            by_cases hsq : c = '\''
            · rw [if_pos (by simp [hsq])] at h
              simp only [withUnread, Reader.unread, Nat.add_sub_cancel, if_true,
                scanSingleQuotedLiteral, Reader.read, hg] at h
              rcases scanSingleQuotedLiteralLoop_spec _ _ _ _ _ _ _ _ h with ⟨ht, hcons⟩
              exact scan_branch_glue hg ht (by decide) (by decide) hcons
            · rw [if_neg (by simp [hsq])] at h
              by_cases hnlc : (c == '\n' || c == '\r') = Bool.true
              · rw [if_pos hnlc] at h
                simp only [withUnread, Reader.unread, Nat.add_sub_cancel, if_true,
                  scanNewline, Reader.read, hg] at h
                rcases scanNewlineLoop_spec _ _ _ _ _ _ h with ⟨ht, hcons⟩
                exact scan_branch_glue hg ht (by decide) (by decide) hcons
              · rw [if_neg hnlc] at h
                by_cases hdig : isDigit c = Bool.true
                · rw [if_pos hdig] at h
                  simp only [withUnread, Reader.unread, Nat.add_sub_cancel, if_true,
                    scanNumber, Reader.read, hg] at h
                  rcases scanNumberLoop_spec _ _ _ _ _ _ _ h with ⟨ht, hcons⟩
                  rcases ht with rfl | rfl
                  · exact scan_branch_glue hg rfl (by decide) (by decide) hcons
                  · exact scan_branch_glue hg rfl (by decide) (by decide) hcons
                · rw [if_neg hdig] at h
                  by_cases hlet : (isLetter c || c == '_') = Bool.true
                  · rw [if_pos hlet] at h
                    simp only [withUnread, Reader.unread, Nat.add_sub_cancel, if_true,
                      scanIdentifier, Reader.read, hg] at h
                    rcases scanIdentifierLoop_spec _ _ _ _ _ _ h with ⟨ht, hcons⟩
                    exact scan_branch_glue hg ht (lookupKeyword_ne_helper _)
                      (lookupKeyword_ne_EOF _) hcons
                  · rw [if_neg hlet] at h
                    by_cases hce : c = eofRune
                    · rw [if_pos (by simp [hce])] at h
                      simp only [ScanResult.tok.injEq] at h
                      rcases h with ⟨rfl, rfl, rfl⟩
                      exact ⟨by decide, fun hnul =>
                        absurd hce (ne_eofRune_of_get?_of_noNul hnul hg)⟩
                    · rw [if_neg (by simp [hce])] at h
                      by_cases hp1 : c = ','
                      · rw [if_pos (by simp [hp1])] at h
                        exact scan_punct_leaf hg (by decide) (by decide) h
                      · rw [if_neg (by simp [hp1])] at h
                        by_cases hp2 : c = '='
                        · rw [if_pos (by simp [hp2])] at h
                          exact scan_punct_leaf hg (by decide) (by decide) h
                        · rw [if_neg (by simp [hp2])] at h
                          by_cases hp3 : c = '('
                          · rw [if_pos (by simp [hp3])] at h
                            exact scan_punct_leaf hg (by decide) (by decide) h
                          · rw [if_neg (by simp [hp3])] at h
                            by_cases hp4 : c = ')'
                            · rw [if_pos (by simp [hp4])] at h
                              exact scan_punct_leaf hg (by decide) (by decide) h
                            · rw [if_neg (by simp [hp4])] at h
                              by_cases hp5 : c = '['
                              · rw [if_pos (by simp [hp5])] at h
                                exact scan_punct_leaf hg (by decide) (by decide) h
                              · rw [if_neg (by simp [hp5])] at h
                                by_cases hp6 : c = ']'
                                · rw [if_pos (by simp [hp6])] at h
                                  exact scan_punct_leaf hg (by decide) (by decide) h
                                · rw [if_neg (by simp [hp6])] at h
                                  by_cases hp7 : c = '<'
                                  · rw [if_pos (by simp [hp7])] at h
                                    exact scan_punct_leaf hg (by decide) (by decide) h
                                  · rw [if_neg (by simp [hp7])] at h
                                    by_cases hp8 : c = '>'
                                    · rw [if_pos (by simp [hp8])] at h
                                      exact scan_punct_leaf hg (by decide) (by decide) h
                                    · rw [if_neg (by simp [hp8])] at h
                                      by_cases hp9 : c = '+'
                                      · rw [if_pos (by simp [hp9])] at h
                                        exact scan_punct_leaf hg (by decide) (by decide) h
                                      · rw [if_neg (by simp [hp9])] at h
                                        by_cases hp10 : c = '-'
                                        · rw [if_pos (by simp [hp10])] at h
                                          exact scan_punct_leaf hg (by decide) (by decide) h
                                        · rw [if_neg (by simp [hp10])] at h
                                          by_cases hp11 : c = '*'
                                          · rw [if_pos (by simp [hp11])] at h
                                            exact scan_punct_leaf hg (by decide) (by decide) h
                                          · rw [if_neg (by simp [hp11])] at h
                                            by_cases hp12 : c = '/'
                                            · rw [if_pos (by simp [hp12])] at h
                                              exact scan_punct_leaf hg (by decide) (by decide) h
                                            · rw [if_neg (by simp [hp12])] at h
                                              by_cases hp13 : c = '^'
                                              · rw [if_pos (by simp [hp13])] at h
                                                exact scan_punct_leaf hg (by decide) (by decide) h
                                              · rw [if_neg (by simp [hp13])] at h
                                                by_cases hp14 : c = '&'
                                                · rw [if_pos (by simp [hp14])] at h
                                                  exact scan_punct_leaf hg (by decide) (by decide) h
                                                · rw [if_neg (by simp [hp14])] at h
                                                  by_cases hp15 : c = '.'
                                                  · rw [if_pos (by simp [hp15])] at h
                                                    exact scan_punct_leaf hg (by decide) (by decide) h
                                                  · rw [if_neg (by simp [hp15])] at h
                                                    by_cases hp16 : c = ';'
                                                    · rw [if_pos (by simp [hp16])] at h
                                                      exact scan_punct_leaf hg (by decide) (by decide) h
                                                    · rw [if_neg (by simp [hp16])] at h
                                                      by_cases hp17 : c = '\\'
                                                      · rw [if_pos (by simp [hp17])] at h
                                                        exact scan_punct_leaf hg (by decide) (by decide) h
                                                      · rw [if_neg (by simp [hp17])] at h
                                                        exact scan_punct_leaf hg (by decide) (by decide) h

/-! ## Round-trip of the caller loop -/

theorem lexAll_roundtrip :
    ∀ (fuel : Nat) (r : Reader) (toks : List (Token × List Char)),
      eofRune ∉ r.input → lexAll fuel r = some toks →
      joinLits toks = r.input.drop r.pos := by
  intro fuel
  induction fuel with
  | zero => intro r toks _ h; simp [lexAll] at h
  | succ n ih =>
    intro r toks hnul h
    cases hs : scan (n+1) r with
    | tok t lit r3 =>
      simp only [lexAll, hs] at h
      rcases scan_spec _ _ _ _ _ hs with ⟨-, hcons⟩
      rcases hcons hnul with ⟨hinp, hdrop, hEOF⟩
      by_cases hE : t = .EOF
      · rw [if_pos hE] at h
        injection h with h
        subst h
        rw [hEOF hE]
        rfl
      · rw [if_neg hE] at h
        rcases hrec : lexAll n r3 with _ | toks2
        · rw [hrec] at h
          exact absurd h (by exact Option.noConfusion)
        · rw [hrec] at h
          injection h with h
          subst h
          have hjoin := ih r3 toks2 (by rw [hinp]; exact hnul) hrec
          rw [hinp] at hjoin
          calc joinLits ((t, lit) :: toks2) = lit ++ joinLits toks2 := rfl
            _ = lit ++ r.input.drop r3.pos := by rw [hjoin]
            _ = r.input.drop r.pos := hdrop.symm
    | err e r3 => simp only [lexAll, hs] at h; exact absurd h (by exact Option.noConfusion)
    | panicked => simp only [lexAll, hs] at h; exact absurd h (by exact Option.noConfusion)
    | fuelOut => simp only [lexAll, hs] at h; exact absurd h (by exact Option.noConfusion)

/-! ## Identifier runs of letters -/

theorem ne_of_isLetter {c x : Char} (h : isLetter c = Bool.true)
    (hx : isLetter x = Bool.false) : (c == x) = Bool.false := by
  rw [beq_eq_false_iff_ne]
  intro he
  rw [he, hx] at h
  exact Bool.noConfusion h

theorem isDigit_eq_false_of_isLetter {c : Char} (h : isLetter c = Bool.true) :
    isDigit c = Bool.false := by
  apply Bool.eq_false_iff.2
  intro hd
  simp only [isDigit, Bool.and_eq_true, decide_eq_true_eq] at hd
  simp only [isLetter, Bool.or_eq_true, Bool.and_eq_true, decide_eq_true_eq] at h
  omega

theorem isLetter_of_isLetter_toUpper {c : Char} (h : isLetter (toUpperChar c) = Bool.true) :
    isLetter c = Bool.true := by
  unfold toUpperChar at h
  by_cases hc : 97 ≤ c.toNat ∧ c.toNat ≤ 122
  · simp [isLetter, hc.1, hc.2]
  · rw [if_neg hc] at h
    exact h

theorem scanIdentifierLoop_letters :
    ∀ (ws : List Char) (fuel : Nat) (r : Reader) (buf : List Char),
      (∀ c ∈ ws, isLetter c = Bool.true) →
      r.input.drop r.pos = ws →
      ws.length < fuel →
      scanIdentifierLoop fuel r buf = .tok (lookupKeyword (buf ++ ws)) (buf ++ ws)
        ⟨r.input, r.pos + ws.length, Bool.false⟩ := by
  intro ws
  induction ws with
  | nil =>
    intro fuel r buf _ hdrop hfuel
    cases fuel with
    | zero => omega
    | succ n =>
      have hg : r.input.get? r.pos = none := by
        rcases hgg : r.input.get? r.pos with _ | c
        · rfl
        · rw [drop_cons_of_get? _ _ hgg] at hdrop
          exact absurd hdrop (by simp)
      have e2 : (eofRune == eofRune) = Bool.true := by decide
      simp only [scanIdentifierLoop, Reader.read, hg, e2, if_true]
      simp
  | cons c cs ih =>
    intro fuel r buf hlet hdrop hfuel
    rcases get?_of_drop_cons hdrop with ⟨hg, hdrop2⟩
    cases fuel with
    | zero => simp at hfuel
    | succ n =>
      have hc : isLetter c = Bool.true := hlet c (by simp)
      have hcne : c ≠ eofRune := by
        intro he
        rw [he] at hc
        exact absurd hc (by decide)
      have hc0 : (c == eofRune) = Bool.false := beq_eq_false_iff_ne.2 hcne
      have hcond : (!(isLetter c) && !(isDigit c) && c != '_') = Bool.false := by
        rw [hc]
        rfl
      simp only [scanIdentifierLoop, Reader.read, hg, hc0, Bool.false_eq_true, if_false,
        hcond]
      have hrec := ih n ⟨r.input, r.pos + 1, Bool.true⟩ (buf ++ [c])
        (fun x hx => hlet x (by simp [hx])) hdrop2 (by simp at hfuel; omega)
      rw [show buf ++ c :: cs = (buf ++ [c]) ++ cs by simp,
        show r.pos + (c :: cs).length = r.pos + 1 + cs.length by simp; omega]
      exact hrec

/-! ## Claim C1 -/

/-- Claim C1 counterexample: the one-character input consisting of the NUL
rune lexes to completion with no tokens and no error, yet the concatenation
of the returned literals is empty and differs from the input. -/
theorem c1_roundtrip_counterexample :
    lexAll 5 (Reader.init [eofRune]) = some [] ∧ joinLits [] ≠ [eofRune] := by
  exact ⟨rfl, by decide⟩

/-- Claim C1 (amended): for every input stream containing no NUL character
(the reader's end-of-input sentinel) that the scanner lexes to completion
without reporting an error, concatenating the literal text of every returned
token, in order, up to but excluding the end-of-input token, reproduces the
original input byte-for-byte. -/
theorem c1_roundtrip (input : List Char) (fuel : Nat) (toks : List (Token × List Char))
    (hnul : eofRune ∉ input) (h : lexAll fuel (Reader.init input) = some toks) :
    joinLits toks = input := by
  have hmain := lexAll_roundtrip fuel (Reader.init input) toks hnul h
  simpa using hmain

/-- Claim C1 witness: a concrete NUL-free input that lexes to completion,
with the round-trip equality obtained from `c1_roundtrip`. -/
theorem c1_roundtrip_witness :
    joinLits [(.Identifier, "ab".toList), (.WS, " ".toList),
      (.IntegerConstant, "12".toList), (.WS, " ".toList)] = "ab 12 ".toList :=
  c1_roundtrip "ab 12 ".toList 20 _ (by decide) (by rfl)

/-! ## Claim C10 -/

/-- Claim C10: the identifier text "optimisedatabasehelper" (in any letter
case) lexes to the `OptimiseDatabase` keyword token, and no `Scan` call on
any input ever returns the `OptimiseDatabaseHelper` token. -/
theorem c10_optimisedatabasehelper :
    (∀ (w : List Char) (fuel : Nat),
      w.map toUpperChar = "OPTIMISEDATABASEHELPER".toList →
      w.length + 2 ≤ fuel →
      scan fuel (Reader.init w) = .tok .OptimiseDatabase w
        ⟨w, w.length, Bool.false⟩) ∧
    (∀ (fuel : Nat) (r : Reader) (lit : List Char) (r2 : Reader),
      scan fuel r ≠ .tok .OptimiseDatabaseHelper lit r2) := by
  constructor
  · intro w fuel hup hfuel
    rcases w with _ | ⟨c, w2⟩
    · exact absurd hup (by decide)
    · have hall : ∀ u ∈ "OPTIMISEDATABASEHELPER".toList, isLetter u = Bool.true := by
        decide
      have hlet : ∀ x ∈ c :: w2, isLetter x = Bool.true := by
        intro x hx
        apply isLetter_of_isLetter_toUpper
        apply hall
        rw [← hup]
        exact List.mem_map_of_mem _ hx
      have hc : isLetter c = Bool.true := hlet c (by simp)
      have hg : (c :: w2 : List Char).get? 0 = some c := rfl
      have hw : isWhitespace c = Bool.false := by
        rw [isWhitespace, ne_of_isLetter hc (by decide), ne_of_isLetter hc (by decide)]
        rfl
      have hnlc : (c == '\n' || c == '\r') = Bool.false := by
        rw [ne_of_isLetter hc (by decide), ne_of_isLetter hc (by decide)]
        rfl
      have hdig : isDigit c = Bool.false := isDigit_eq_false_of_isLetter hc
      have hdisp : (isLetter c || c == '_') = Bool.true := by rw [hc]; rfl
      have hlk : lookupKeyword (c :: w2) = .OptimiseDatabase := by
        unfold lookupKeyword
        rw [hup]
        rfl
      simp only [scan, Reader.init, Reader.read, hg, hw, Bool.false_eq_true, if_false,
        ne_of_isLetter hc (show isLetter '|' = Bool.false by decide),
        ne_of_isLetter hc (show isLetter '"' = Bool.false by decide),
        ne_of_isLetter hc (show isLetter '$' = Bool.false by decide),
        ne_of_isLetter hc (show isLetter '\'' = Bool.false by decide),
        hnlc, hdig, hdisp, if_true, withUnread, Reader.unread, Nat.add_sub_cancel,
        scanIdentifier, Reader.read]
      have hrec := scanIdentifierLoop_letters w2 fuel ⟨c :: w2, 1, Bool.true⟩ [c]
        (fun x hx => hlet x (by simp [hx])) (by rfl) (by simp at hfuel ⊢; omega)
      rw [show ([c] ++ w2 : List Char) = c :: w2 by simp] at hrec
      rw [show (c :: w2 : List Char).length = 1 + w2.length by simp; omega]
      rw [hlk] at hrec
      exact hrec
  · intro fuel r lit r2 h
    rcases scan_spec _ _ _ _ _ h with ⟨hne, -⟩
    exact hne rfl

/-- Claim C10 witness: the mixed-case spelling "OptimiseDatabaseHelper"
scanned from a fresh reader yields the `OptimiseDatabase` keyword token with
the original-case literal. -/
theorem c10_optimisedatabasehelper_witness :
    scan 30 (Reader.init "OptimiseDatabaseHelper".toList)
      = .tok .OptimiseDatabase "OptimiseDatabaseHelper".toList
        ⟨"OptimiseDatabaseHelper".toList, "OptimiseDatabaseHelper".toList.length,
          Bool.false⟩ :=
  c10_optimisedatabasehelper.1 "OptimiseDatabaseHelper".toList 30 (by decide) (by decide)

/-! ## Claim C2: unclosed double/single-quoted literals at end of input -/

theorem scanDoubleQuotedLiteralLoop_noClose :
    ∀ (fuel : Nat) (r : Reader) (buf : List Char),
      (∀ c ∈ r.input.drop r.pos, ¬(c = '"' ∨ c = '\n')) →
      scanDoubleQuotedLiteralLoop fuel r buf = .fuelOut := by
  intro fuel
  induction fuel with
  | zero => intro r buf _; rfl
  | succ n ih =>
    intro r buf hno
    rcases hg : r.input.get? r.pos with _ | c
    · exact scanDoubleQuotedLiteralLoop_atEnd (n+1) r buf (List.get?_eq_none.1 hg)
    · have hdc := drop_cons_of_get? _ _ hg
      have hc := hno c (by rw [hdc]; simp)
      have hc1 : ¬(c = '"') := fun hh => hc (Or.inl hh)
      have hc2 : ¬(c = '\n') := fun hh => hc (Or.inr hh)
      simp only [scanDoubleQuotedLiteralLoop, Reader.read, hg]
      rw [if_neg (by simp [hc1]), if_neg (by simp [hc2])]
      apply ih
      intro x hx
      exact hno x (by rw [hdc]; simp [hx])

theorem scanSingleQuotedLiteralLoop_noClose :
    ∀ (fuel : Nat) (r : Reader) (buf : List Char) (d b : Bool),
      (∀ c ∈ r.input.drop r.pos, ¬(c = '\'' ∨ c = '\n' ∨ c = ':' ∨ c = '-')) →
      (d && b) = Bool.false →
      scanSingleQuotedLiteralLoop fuel r buf d b = .fuelOut := by
  intro fuel
  induction fuel with
  | zero => intro r buf d b _ _; rfl
  | succ n ih =>
    intro r buf d b hno hdb
    rcases hg : r.input.get? r.pos with _ | c
    · exact scanSingleQuotedLiteralLoop_atEnd (n+1) r buf d b (List.get?_eq_none.1 hg) hdb
    · have hdc := drop_cons_of_get? _ _ hg
      have hc := hno c (by rw [hdc]; simp)
      have e1 : (c == ':') = Bool.false := by
        simp only [beq_eq_false_iff_ne]
        exact fun h => hc (Or.inr (Or.inr (Or.inl h)))
      have e2 : (c == '-') = Bool.false := by
        simp only [beq_eq_false_iff_ne]
        exact fun h => hc (Or.inr (Or.inr (Or.inr h)))
      have hc1 : ¬(c = '\'') := fun hh => hc (Or.inl hh)
      have hc2 : ¬(c = '\n') := fun hh => hc (Or.inr (Or.inl hh))
      simp only [scanSingleQuotedLiteralLoop, Reader.read, hg, e1, e2,
        Bool.false_eq_true, if_false]
      rw [if_neg (by simp [hdb]), if_neg (by simp [hc1]), if_neg (by simp [hc2])]
      apply ih _ _ d b _ hdb
      intro x hx
      exact hno x (by rw [hdc]; simp [hx])

/-- Claim C8: scanning the pure digit run "123" (digits immediately followed
by end of input) does not return a token: the number sub-scanner's final
pushback runs after a failed read, and `unread` panics. -/
theorem c8_digit_run_panics :
    scan 10 (Reader.init "123".toList) = .panicked := by rfl

/-- Claim C2: on the inputs `"abc` and `'abc` (a double- or single-quoted
literal reaching end of input before its closing delimiter) `Scan` never
returns: for every fuel bound, the scanning loop is still running (the Go
loop reads the sentinel rune forever).  No fatal scan error is produced. -/
theorem c2_unclosed_literal_diverges :
    (∀ fuel : Nat, scan fuel (Reader.init ('"' :: "abc".toList)) = .fuelOut) ∧
    (∀ fuel : Nat, scan fuel (Reader.init ('\'' :: "abc".toList)) = .fuelOut) := by
  constructor
  · intro fuel
    have hred : scan fuel (Reader.init ('"' :: "abc".toList))
        = scanDoubleQuotedLiteralLoop fuel ⟨'"' :: "abc".toList, 1, Bool.true⟩ ['"'] := rfl
    rw [hred]
    apply scanDoubleQuotedLiteralLoop_noClose
    decide
  · intro fuel
    have hred : scan fuel (Reader.init ('\'' :: "abc".toList))
        = scanSingleQuotedLiteralLoop fuel ⟨'\'' :: "abc".toList, 1, Bool.true⟩ ['\'']
            Bool.false Bool.false := rfl
    rw [hred]
    apply scanSingleQuotedLiteralLoop_noClose
    · decide
    · rfl

/-! ## Claims C3 and C4: nested block comments -/

/-- Claim C3: the input `|* a |* b *| c *|` lexes to exactly one comment
token whose literal is the entire input: the inner `|*` raises the nesting
depth, the inner `*|` lowers it, and only the final `*|` at depth zero
closes the comment, with all delimiter text kept verbatim. -/
theorem c3_nested_comment :
    lexAll 40 (Reader.init "|* a |* b *| c *|".toList)
      = some [(.Comment, "|* a |* b *| c *|".toList)] := by rfl

/-- Claim C4: in `|*| baz *|` the `*|` seen when the comment buffer holds
only the opening `|*` does not close the comment; the whole input lexes to
exactly one comment token containing everything including that `*|`. -/
theorem c4_comment_close_guard :
    lexAll 40 (Reader.init "|*| baz *|".toList)
      = some [(.Comment, "|*| baz *|".toList)] := by rfl

/-! ## Claim C9: NUL and the end-of-input sentinel -/

/-- Claim C9 counterexample: a NUL inside a double-quoted literal is consumed
as ordinary string content, the text after the NUL is still tokenized, and
the round-trip property holds for this NUL-containing input — refuting the
claim that input text after a NUL is never tokenized and that the round-trip
property fails for every input containing NUL. -/
theorem c9_nul_counterexample :
    lexAll 20 (Reader.init ['"', 'a', eofRune, 'b', '"', 'x'])
      = some [(.StringConstant, ['"', 'a', eofRune, 'b', '"']), (.Identifier, ['x'])] ∧
    joinLits [(.StringConstant, ['"', 'a', eofRune, 'b', '"']), (.Identifier, ['x'])]
      = ['"', 'a', eofRune, 'b', '"', 'x'] := ⟨rfl, rfl⟩

/-- Claim C9 (amended): when `Scan` is called with a NUL as the next
character, it returns the end-of-input token exactly as at real end of input
(consuming the NUL), so the text after that NUL is never tokenized and the
round-trip property fails for such inputs (e.g. `,<NUL>b` lexes to just the
comma); but a NUL consumed inside a sub-scanner (e.g. double-quoted literal
content) does not end lexing, so not every NUL-containing input loses its
remaining text. -/
theorem c9_nul_amended :
    (∀ (fuel : Nat) (r : Reader), r.input.get? r.pos = some eofRune →
      scan fuel r = .tok .EOF [] ⟨r.input, r.pos + 1, Bool.true⟩) ∧
    lexAll 10 (Reader.init [',', eofRune, 'b']) = some [(.Comma, [','])] := by
  constructor
  · intro fuel r hg
    simp only [scan, Reader.read, hg]
    rfl
  · rfl

/-- Claim C9 witness: `Scan` at a NUL returns the end-of-input token. -/
theorem c9_nul_amended_witness :
    scan 5 (Reader.init [eofRune]) = .tok .EOF [] ⟨[eofRune], 1, Bool.true⟩ :=
  c9_nul_amended.1 5 (Reader.init [eofRune]) rfl

/-! ## Claim C6: single-line comments -/

theorem scanSingleLineCommentLoop_takeWhile :
    ∀ (fuel : Nat) (r : Reader) (buf : List Char),
      eofRune ∉ r.input →
      (r.input.drop r.pos).length < fuel →
      scanSingleLineCommentLoop fuel r buf
        = .tok .Comment (buf ++ (r.input.drop r.pos).takeWhile (fun x => x != '\n'))
            ⟨r.input,
              r.pos + ((r.input.drop r.pos).takeWhile (fun x => x != '\n')).length,
              Bool.false⟩ := by
  intro fuel
  induction fuel with
  | zero => intro r buf _ hfuel; omega
  | succ n ih =>
    intro r buf hnul hfuel
    rcases hg : r.input.get? r.pos with _ | c
    · have hnil := drop_nil_of_get?_none _ _ hg
      have e1 : (eofRune == '\n') = Bool.true ↔ False := by decide
      have e2 : (eofRune == eofRune) = Bool.true := by decide
      simp only [scanSingleLineCommentLoop, Reader.read, hg, e1, if_false, e2, if_true,
        hnil]
      simp
    · have hdc := drop_cons_of_get? _ _ hg
      by_cases hn : c = '\n'
      · simp only [scanSingleLineCommentLoop, Reader.read, hg]
        rw [if_pos (by simp [hn])]
        simp only [withUnread, Reader.unread, Nat.add_sub_cancel, if_true, hdc]
        rw [List.takeWhile_cons]
        simp [hn]
      · have hce : c ≠ eofRune := ne_eofRune_of_get?_of_noNul hnul hg
        simp only [scanSingleLineCommentLoop, Reader.read, hg]
        rw [if_neg (by simp [hn]), if_neg (by simp [hce])]
        have hrec := ih ⟨r.input, r.pos + 1, Bool.true⟩ (buf ++ [c]) hnul
          (by rw [hdc] at hfuel; simp at hfuel ⊢; omega)
        rw [hrec, hdc, List.takeWhile_cons]
        simp only [bne_iff_ne, ne_eq, hn, not_false_eq_true, if_pos]
        simp only [ScanResult.tok.injEq, Reader.mk.injEq]
        refine ⟨trivial, by simp, trivial, by simp only [List.length_cons]; omega, trivial⟩

/-- Claim C6 counterexample: when `'|'` is the final character of the input,
`Scan` does not return a comment token: the two-byte peek in the comment
dispatcher fails at end of input and its error is returned. -/
theorem c6_single_line_counterexample :
    scan 5 (Reader.init ['|']) = .err .peekEOF ⟨['|'], 0, Bool.false⟩ := by rfl

/-- Claim C6 (amended): for every NUL-free input whose next token starts
with `'|'` followed by at least one character that is not `'*'`, `Scan`
returns a single-line comment token consuming through the newline terminator
(exclusive, the newline is left for the next call) or through end of input
if no terminator exists; the literal begins with `'|'` and contains
everything up to but not including the terminating `'\n'`.  When `'|'` is
the final character of the input, `Scan` instead returns the error from the
failed two-byte peek and no token. -/
theorem c6_single_line_comment (c : Char) (rest : List Char) (fuel : Nat)
    (hstar : c ≠ '*') (hnul : eofRune ∉ ('|' :: c :: rest : List Char))
    (hfuel : rest.length + 3 ≤ fuel) :
    scan fuel (Reader.init ('|' :: c :: rest))
      = .tok .Comment ('|' :: (c :: rest).takeWhile (fun x => x != '\n'))
          ⟨'|' :: c :: rest,
            1 + ((c :: rest).takeWhile (fun x => x != '\n')).length,
            Bool.false⟩ := by
  have h1 : scan fuel (Reader.init ('|' :: c :: rest))
      = scanComment fuel ⟨'|' :: c :: rest, 0, Bool.false⟩ := rfl
  have hpk : Reader.peekN ⟨'|' :: c :: rest, 0, Bool.false⟩ 2
      = (some ['|', c], ⟨'|' :: c :: rest, 0, Bool.false⟩) := by
    simp only [Reader.peekN]
    rw [if_pos (by simp)]
    rfl
  have hbeq : ¬((['|', c] : List Char) == ['|', '*']) = Bool.true := by
    simp [hstar]
  have h2 : scanComment fuel ⟨'|' :: c :: rest, 0, Bool.false⟩
      = scanSingleLineComment fuel ⟨'|' :: c :: rest, 0, Bool.false⟩ := by
    simp only [scanComment, hpk]
    rw [if_neg hbeq]
  have h3 : scanSingleLineComment fuel ⟨'|' :: c :: rest, 0, Bool.false⟩
      = scanSingleLineCommentLoop fuel ⟨'|' :: c :: rest, 1, Bool.true⟩ ['|'] := rfl
  rw [h1, h2, h3]
  have hlw := scanSingleLineCommentLoop_takeWhile fuel
    ⟨'|' :: c :: rest, 1, Bool.true⟩ ['|'] hnul (by simp; omega)
  exact hlw

/-- Claim C6 witness: the input `|ab` terminated by a newline and further
text yields the comment literal `|ab` with the newline left unconsumed. -/
theorem c6_single_line_comment_witness :
    scan 10 (Reader.init "|ab\ncd".toList)
      = .tok .Comment "|ab".toList ⟨"|ab\ncd".toList, 3, Bool.false⟩ :=
  c6_single_line_comment 'a' "b\ncd".toList 10 (by decide) (by decide) (by decide)

/-! ## Claim C5: single-quoted date/time literals -/

theorem scanSingleQuotedLiteralLoop_content :
    ∀ (content : List Char) (fuel : Nat) (r : Reader) (buf : List Char) (d b : Bool)
      (tail : List Char),
      r.input.drop r.pos = content ++ '\'' :: tail →
      '\'' ∉ content → '\n' ∉ content →
      content.length < fuel →
      (((d = Bool.true ∨ '-' ∈ content) ∧ (b = Bool.true ∨ ':' ∈ content)) →
        ∃ r2, scanSingleQuotedLiteralLoop fuel r buf d b = .err .malformedDateOrTime r2) ∧
      (¬((d = Bool.true ∨ '-' ∈ content) ∧ (b = Bool.true ∨ ':' ∈ content)) →
        scanSingleQuotedLiteralLoop fuel r buf d b
          = .tok .DateOrTimeConstant (buf ++ content ++ ['\''])
              ⟨r.input, r.pos + content.length + 1, Bool.true⟩) := by
  intro content
  induction content with
  | nil =>
    intro fuel r buf d b tail hdrop hq hn hfuel
    rcases get?_of_drop_cons hdrop with ⟨hg, -⟩
    cases fuel with
    | zero => omega
    | succ n =>
      have e1 : (('\'' : Char) == ':') = Bool.false := by decide
      have e2 : (('\'' : Char) == '-') = Bool.false := by decide
      simp only [scanSingleQuotedLiteralLoop, Reader.read, hg, e1, e2,
        Bool.false_eq_true, if_false]
      constructor
      · intro hP
        simp only [List.not_mem_nil, or_false] at hP
        rcases hP with ⟨hd, hb⟩
        subst hd
        subst hb
        rw [if_pos (show (Bool.true && Bool.true) = Bool.true from rfl)]
        exact ⟨_, rfl⟩
      · intro hP
        simp only [List.not_mem_nil, or_false] at hP
        have hdb : (d && b) = Bool.false := by
          rcases d <;> rcases b <;> simp_all
        rw [if_neg (by simp [hdb]), if_pos (by decide)]
        simp
  | cons x xs ih =>
    intro fuel r buf d b tail hdrop hq hn hfuel
    rw [List.cons_append] at hdrop
    rcases get?_of_drop_cons hdrop with ⟨hg, hdrop2⟩
    have hxq : x ≠ '\'' := by
      intro hh
      apply hq
      rw [hh]
      exact List.mem_cons_self _ _
    have hxn : x ≠ '\n' := by
      intro hh
      apply hn
      rw [hh]
      exact List.mem_cons_self _ _
    cases fuel with
    | zero => omega
    | succ n =>
      have hite1 : (if (x == '-') = Bool.true then Bool.true else d)
          = ((x == '-') || d) := by
        by_cases hxx : (x == '-') = Bool.true <;> simp [hxx]
      have hite2 : (if (x == ':') = Bool.true then Bool.true else b)
          = ((x == ':') || b) := by
        by_cases hxx : (x == ':') = Bool.true <;> simp [hxx]
      have hPfwd :
          ((d = Bool.true ∨ '-' ∈ x :: xs) ∧ (b = Bool.true ∨ ':' ∈ x :: xs)) →
          ((((x == '-') || d) = Bool.true ∨ '-' ∈ xs) ∧
            (((x == ':') || b) = Bool.true ∨ ':' ∈ xs)) := by
        intro hP
        constructor
        · rcases hP.1 with hdt | hm
          · exact Or.inl (by simp [hdt])
          · rcases List.mem_cons.1 hm with he | hm2
            · exact Or.inl (by simp [he.symm])
            · exact Or.inr hm2
        · rcases hP.2 with hbt | hm
          · exact Or.inl (by simp [hbt])
          · rcases List.mem_cons.1 hm with he | hm2
            · exact Or.inl (by simp [he.symm])
            · exact Or.inr hm2
      have hPbwd :
          ((((x == '-') || d) = Bool.true ∨ '-' ∈ xs) ∧
            (((x == ':') || b) = Bool.true ∨ ':' ∈ xs)) →
          ((d = Bool.true ∨ '-' ∈ x :: xs) ∧ (b = Bool.true ∨ ':' ∈ x :: xs)) := by
        intro hP
        constructor
        · rcases hP.1 with hdt | hm
          · rcases (by simpa using hdt : x = '-' ∨ d = Bool.true) with he | hd2
            · exact Or.inr (by rw [he]; exact List.mem_cons_self _ _)
            · exact Or.inl hd2
          · exact Or.inr (List.mem_cons_of_mem _ hm)
        · rcases hP.2 with hbt | hm
          · rcases (by simpa using hbt : x = ':' ∨ b = Bool.true) with he | hb2
            · exact Or.inr (by rw [he]; exact List.mem_cons_self _ _)
            · exact Or.inl hb2
          · exact Or.inr (List.mem_cons_of_mem _ hm)
      simp only [scanSingleQuotedLiteralLoop, Reader.read, hg, hite1, hite2]
      by_cases hstep : (((x == '-') || d) && ((x == ':') || b)) = Bool.true
      · rw [if_pos hstep]
        rcases Bool.and_eq_true_iff.1 hstep with ⟨hs1, hs2⟩
        exact ⟨fun _ => ⟨_, rfl⟩,
          fun hP => absurd (hPbwd ⟨Or.inl hs1, Or.inl hs2⟩) hP⟩
      · rw [if_neg hstep, if_neg (by simp [hxq]), if_neg (by simp [hxn])]
        have hIH := ih n ⟨r.input, r.pos + 1, Bool.true⟩ (buf ++ [x])
          ((x == '-') || d) ((x == ':') || b) tail hdrop2
          (fun hh => hq (List.mem_cons_of_mem _ hh))
          (fun hh => hn (List.mem_cons_of_mem _ hh))
          (by simp only [List.length_cons] at hfuel; omega)
        constructor
        · intro hP
          exact hIH.1 (hPfwd hP)
        · intro hP
          have h2 := hIH.2 (fun hPn => hP (hPbwd hPn))
          rw [h2]
          simp only [ScanResult.tok.injEq, Reader.mk.injEq]
          refine ⟨trivial, by simp, trivial, by simp only [List.length_cons]; omega,
            trivial⟩

/-- Claim C5: scanning a single-quoted literal whose content (before the
closing quote) contains both a '-' and a ':' separator returns the
malformed-date-or-time fatal scan error and no token; if at most one of the
two separators occurs (including the empty literal), `Scan` returns a
`DateOrTimeConstant` token whose literal includes both quotes.  The content
is a well-formed literal body: it contains no quote and no raw newline. -/
theorem c5_single_quoted_date_time (content tail2 : List Char) (fuel : Nat)
    (hq : '\'' ∉ content) (hn : '\n' ∉ content)
    (hfuel : content.length + 2 ≤ fuel) :
    (('-' ∈ content ∧ ':' ∈ content) →
      ∃ r2, scan fuel (Reader.init ('\'' :: content ++ '\'' :: tail2))
          = .err .malformedDateOrTime r2) ∧
    (¬('-' ∈ content ∧ ':' ∈ content) →
      scan fuel (Reader.init ('\'' :: content ++ '\'' :: tail2))
        = .tok .DateOrTimeConstant ('\'' :: content ++ ['\''])
            ⟨'\'' :: content ++ '\'' :: tail2, content.length + 2, Bool.true⟩) := by
  have hred : scan fuel (Reader.init ('\'' :: content ++ '\'' :: tail2))
      = scanSingleQuotedLiteralLoop fuel
          ⟨'\'' :: content ++ '\'' :: tail2, 1, Bool.true⟩ ['\''] Bool.false Bool.false :=
    rfl
  have hmain := scanSingleQuotedLiteralLoop_content content fuel
    ⟨'\'' :: content ++ '\'' :: tail2, 1, Bool.true⟩ ['\''] Bool.false Bool.false tail2
    (by rfl) hq hn (by omega)
  constructor
  · intro hP
    rw [hred]
    exact hmain.1 ⟨Or.inr hP.1, Or.inr hP.2⟩
  · intro hP
    rw [hred]
    have h2 := hmain.2 (by
      intro hPn
      apply hP
      rcases hPn with ⟨h1, h2⟩
      rcases h1 with h1 | h1
      · exact absurd h1 (by decide)
      · rcases h2 with h2 | h2
        · exact absurd h2 (by decide)
        · exact ⟨h1, h2⟩)
    rw [h2]
    simp only [ScanResult.tok.injEq, Reader.mk.injEq]
    refine ⟨trivial, by simp, trivial, by omega, trivial⟩

/-- Claim C5 witness: `'1-2:3'` (both separators) yields the malformed error;
`'10:30'` (one separator) yields the `DateOrTimeConstant` token with both
quotes in the literal. -/
theorem c5_single_quoted_date_time_witness :
    (∃ r2, scan 20 (Reader.init "'1-2:3'".toList) = .err .malformedDateOrTime r2) ∧
    scan 20 (Reader.init "'10:30'x".toList)
      = .tok .DateOrTimeConstant "'10:30'".toList
          ⟨"'10:30'x".toList, 7, Bool.true⟩ :=
  ⟨(c5_single_quoted_date_time "1-2:3".toList [] 20 (by decide) (by decide)
      (by decide)).1 (by decide),
   (c5_single_quoted_date_time "10:30".toList ['x'] 20 (by decide) (by decide)
      (by decide)).2 (by decide)⟩

/-! ## Claim C7: the number sub-scanner -/

theorem scanNumberLoop_digits :
    ∀ (ds : List Char) (fuel : Nat) (r : Reader) (buf : List Char) (tk : Token)
      (suffix : List Char),
      (∀ c ∈ ds, isDigit c = Bool.true) →
      r.input.drop r.pos = ds ++ suffix →
      r.canUnread = Bool.true →
      ds.length < fuel →
      scanNumberLoop fuel r buf tk
        = scanNumberLoop (fuel - ds.length) ⟨r.input, r.pos + ds.length, Bool.true⟩
            (buf ++ ds) tk := by
  intro ds
  induction ds with
  | nil =>
    intro fuel r buf tk suffix _ _ hcu _
    rcases r with ⟨ri, rp, rc⟩
    have hrc : rc = Bool.true := hcu
    subst hrc
    simp
  | cons c cs ih =>
    intro fuel r buf tk suffix hds hdrop hcu hfuel
    rw [List.cons_append] at hdrop
    rcases get?_of_drop_cons hdrop with ⟨hg, hdrop2⟩
    have hcdig : isDigit c = Bool.true := hds c (by simp)
    have hcdot : (c == '.') = Bool.false := by
      rw [beq_eq_false_iff_ne]
      intro hh
      rw [hh] at hcdig
      exact absurd hcdig (by decide)
    cases fuel with
    | zero => omega
    | succ n =>
      simp only [scanNumberLoop, Reader.read, hg, hcdot, Bool.false_eq_true, if_false,
        hcdig, if_true]
      rw [show (n + 1) - (c :: cs : List Char).length = n - cs.length by
          simp only [List.length_cons]; omega,
        show r.pos + (c :: cs : List Char).length = r.pos + 1 + cs.length by
          simp only [List.length_cons]; omega,
        show buf ++ c :: cs = (buf ++ [c]) ++ cs by simp]
      exact ih n ⟨r.input, r.pos + 1, Bool.true⟩ (buf ++ [c]) tk suffix
        (fun x hx => hds x (by simp [hx])) hdrop2 rfl
        (by simp only [List.length_cons] at hfuel; omega)

/-- Claim C7: in the number sub-scanner a single '.' while the token is still
an integer constant promotes it to a decimal constant and scanning continues
through the following digits; a second '.' in the same number is a fatal
malformed-number error returned from the same `Scan` call with no token,
while the same digits ended by a non-digit non-dot character yield the
`DecimalConstant` token. -/
theorem c7_number_scanner (d : Char) (ds1 ds2 rest : List Char) (t : Char) (fuel : Nat)
    (hd : isDigit d = Bool.true)
    (h1 : ∀ c ∈ ds1, isDigit c = Bool.true)
    (h2 : ∀ c ∈ ds2, isDigit c = Bool.true)
    (ht1 : isDigit t = Bool.false) (ht2 : t ≠ '.')
    (hfuel : ds1.length + ds2.length + 4 ≤ fuel) :
    (∃ r2, scan fuel (Reader.init (d :: ds1 ++ '.' :: ds2 ++ '.' :: rest))
        = .err .malformedNumber r2) ∧
    (∃ r2, scan fuel (Reader.init (d :: ds1 ++ '.' :: ds2 ++ t :: rest))
        = .tok .DecimalConstant (d :: ds1 ++ '.' :: ds2) r2) := by
  have hne : ∀ x : Char, isDigit x = Bool.false → (d == x) = Bool.false := by
    intro x hx
    rw [beq_eq_false_iff_ne]
    intro he
    rw [he, hx] at hd
    exact Bool.noConfusion hd
  have hlet : isLetter d = Bool.false := by
    apply Bool.eq_false_iff.2
    intro hl
    rw [isDigit_eq_false_of_isLetter hl] at hd
    exact Bool.noConfusion hd
  have hdisp : ∀ X : List Char, scan fuel (Reader.init (d :: X))
      = scanNumberLoop fuel ⟨d :: X, 1, Bool.true⟩ [d] .IntegerConstant := by
    intro X
    have hw : isWhitespace d = Bool.false := by
      rw [isWhitespace, hne ' ' (by decide), hne '\t' (by decide)]
      rfl
    have hnl : (d == '\n' || d == '\r') = Bool.false := by
      rw [hne '\n' (by decide), hne '\r' (by decide)]
      rfl
    have hg0 : (d :: X : List Char).get? 0 = some d := rfl
    simp only [scan, Reader.init, Reader.read, hg0, hw, Bool.false_eq_true, if_false,
      hne '|' (by decide), hne '"' (by decide), hne '$' (by decide),
      hne '\'' (by decide), hnl, hd, if_true, withUnread, Reader.unread,
      Nat.add_sub_cancel, scanNumber]
  obtain ⟨m, hm⟩ : ∃ m, fuel - ds1.length = m + 1 := ⟨fuel - ds1.length - 1, by omega⟩
  have hdrop1 : ∀ Z : List Char,
      (d :: (ds1 ++ '.' :: (ds2 ++ Z)) : List Char).drop (1 + ds1.length)
        = '.' :: (ds2 ++ Z) := by
    intro Z
    rw [show 1 + ds1.length = ds1.length + 1 by omega]
    show (ds1 ++ '.' :: (ds2 ++ Z) : List Char).drop ds1.length = '.' :: (ds2 ++ Z)
    exact List.drop_left ds1 _
  have hcommon : ∀ Z : List Char,
      scan fuel (Reader.init (d :: (ds1 ++ '.' :: (ds2 ++ Z))))
        = scanNumberLoop (m - ds2.length)
            ⟨d :: (ds1 ++ '.' :: (ds2 ++ Z)), 1 + ds1.length + 1 + ds2.length, Bool.true⟩
            ((([d] ++ ds1) ++ ['.']) ++ ds2) .DecimalConstant := by
    intro Z
    rw [hdisp (ds1 ++ '.' :: (ds2 ++ Z))]
    rw [scanNumberLoop_digits ds1 fuel ⟨d :: (ds1 ++ '.' :: (ds2 ++ Z)), 1, Bool.true⟩
      [d] .IntegerConstant ('.' :: (ds2 ++ Z)) h1 (by rfl) rfl (by omega)]
    rcases get?_of_drop_cons (hdrop1 Z) with ⟨hgdot, hdrop2⟩
    rw [hm]
    simp only [scanNumberLoop, Reader.read, hgdot, beq_self_eq_true, if_true]
    rw [scanNumberLoop_digits ds2 m
      ⟨d :: (ds1 ++ '.' :: (ds2 ++ Z)), 1 + ds1.length + 1, Bool.true⟩
      (([d] ++ ds1) ++ ['.']) .DecimalConstant Z h2 hdrop2 rfl (by omega)]
  have hdropZ : ∀ Z : List Char,
      (d :: (ds1 ++ '.' :: (ds2 ++ Z)) : List Char).drop (1 + ds1.length + 1 + ds2.length)
        = Z := by
    intro Z
    rw [← List.drop_drop, (get?_of_drop_cons (hdrop1 Z)).2]
    exact List.drop_left ds2 Z
  obtain ⟨k, hk⟩ : ∃ k, m - ds2.length = k + 1 := ⟨m - ds2.length - 1, by omega⟩
  constructor
  · rcases get?_of_drop_cons (hdropZ ('.' :: rest)) with ⟨hgd2, -⟩
    rw [show (d :: ds1 ++ '.' :: ds2 ++ '.' :: rest : List Char)
        = d :: (ds1 ++ '.' :: (ds2 ++ '.' :: rest)) from by simp]
    rw [hcommon ('.' :: rest), hk]
    simp only [scanNumberLoop, Reader.read, hgd2, beq_self_eq_true, if_true,
      show (Token.DecimalConstant == Token.IntegerConstant) = Bool.false from rfl,
      Bool.false_eq_true, if_false]
    exact ⟨_, rfl⟩
  · rcases get?_of_drop_cons (hdropZ (t :: rest)) with ⟨hgt, -⟩
    have htdot : (t == '.') = Bool.false := beq_eq_false_iff_ne.2 ht2
    rw [show (d :: ds1 ++ '.' :: ds2 ++ t :: rest : List Char)
        = d :: (ds1 ++ '.' :: (ds2 ++ t :: rest)) from by simp]
    rw [hcommon (t :: rest), hk]
    simp only [scanNumberLoop, Reader.read, hgt, htdot, Bool.false_eq_true, if_false,
      ht1, withUnread, Reader.unread, if_true, Nat.add_sub_cancel]
    refine ⟨⟨d :: (ds1 ++ '.' :: (ds2 ++ t :: rest)), 1 + ds1.length + 1 + ds2.length,
      Bool.false⟩, ?_⟩
    rw [show (([d] ++ ds1) ++ ['.']) ++ ds2 = d :: ds1 ++ '.' :: ds2 from by simp]

/-- Claim C7 witness: `123.45.6` produces the malformed-number error on the
same `Scan` call, and `123.45 ` (ended by a space) produces the
`DecimalConstant` token `123.45`. -/
theorem c7_number_scanner_witness :
    (∃ r2, scan 30 (Reader.init "123.45.6".toList) = .err .malformedNumber r2) ∧
    (∃ r2, scan 30 (Reader.init "123.45 6".toList)
        = .tok .DecimalConstant "123.45".toList r2) := by
  have hin1 : "123.45.6".toList
      = '1' :: "23".toList ++ '.' :: "45".toList ++ '.' :: "6".toList := by decide
  have hin2 : "123.45 6".toList
      = '1' :: "23".toList ++ '.' :: "45".toList ++ ' ' :: "6".toList := by decide
  have hlit : "123.45".toList = '1' :: "23".toList ++ '.' :: "45".toList := by decide
  rw [hin1, hin2, hlit]
  exact c7_number_scanner '1' "23".toList "45".toList "6".toList ' ' 30 (by decide)
    (by decide) (by decide) (by decide) (by decide) (by decide)

end Equilex
